import Mathlib

/-!
Verification of the hnsw-go HNSW index (dmarro89/hnsw-go).

This file shallowly embeds the Go sources and proves the claims of the
natural-language specification against the embedding.

Modelling conventions used throughout:

* Go `float32` distance values are modelled as rationals (ℚ).  Every claim
  proved over this embedding depends only on the ordering of distances,
  never on rounding, except where the float bit-level encoding itself is
  the object of the claim (EncodeHeapItem), which is modelled exactly on
  bit patterns.
* Go slices of nodes (`[]*structs.Node`) are modelled as `List Node`;
  pointers into the dense node store are modelled by the node's slot
  index, which the dense-id discipline (caller id = slot index, claim C10)
  makes interchangeable with the Go pointer.
* Go runtime panics (index out of range, slice bounds, nil dereference,
  explicit `panic(...)`) are modelled as `Except GoPanic` error results.
-/

namespace HnswGo

/-- A Go runtime panic reachable in the embedded code. -/
inductive GoPanic where
  | indexOutOfRange : GoPanic
  | sliceBounds : GoPanic
  | emptyVector : GoPanic
  | nilDeref : GoPanic
  | invalidId : GoPanic
deriving DecidableEq, Repr

/-- structs.NodeHeap (structs/minheap.go lines 3-6): a (distance, id) pair
stored in the priority queues.  Dist (Go float32) is modelled as ℚ; Id is a
node-store slot index. -/
structure NodeHeap where
  Dist : ℚ
  Id : ℕ
deriving DecidableEq, Repr

instance : Inhabited NodeHeap := ⟨⟨0, 0⟩⟩

/-!
Generic array-backed binary heap code.

structs/minheap.go and structs/maxheap.go are textually identical except
that every comparison `<` on Dist in the min-heap is `>` in the max-heap.
We embed the shared code once, parameterized by a key projection into a
linear order; `MinHeap` instantiates the key with Dist, `MaxHeap` with the
order dual of Dist, which turns `>` on Dist into `<` on the key exactly as
in maxheap.go.
-/

section GenericHeap

variable {α : Type} {K : Type} [Inhabited α] [LinearOrder K]

/-- The two-element swap `h.nodes[i], h.nodes[j] = h.nodes[j], h.nodes[i]`
used by siftUp and siftDown. -/
def swapAt (l : List α) (i j : ℕ) : List α :=
  (l.set i (l.getD j default)).set j (l.getD i default)

@[simp]
theorem swapAt_length (l : List α) (i j : ℕ) : (swapAt l i j).length = l.length := by
  simp [swapAt]

/-- siftUp (minheap.go lines 65-75 / maxheap.go lines 53-63): restore the
heap property moving up from index i; (i-1)/2 is the parent index. -/
def siftUpBy (key : α → K) (l : List α) (i : ℕ) : List α :=
  if i = 0 then l
  else if key (l.getD i default) < key (l.getD ((i - 1) / 2) default) then
    siftUpBy key (swapAt l i ((i - 1) / 2)) ((i - 1) / 2)
  else l
termination_by i
decreasing_by omega

/-- One candidate-selection step of siftDown: replace the current smallest
index i by child index cand when cand is in range and its key is smaller
(minheap.go lines 84-89 / maxheap.go lines 72-77). -/
def chooseIdx (key : α → K) (l : List α) (cand i : ℕ) : ℕ :=
  if cand < l.length ∧ key (l.getD cand default) < key (l.getD i default) then cand else i

theorem chooseIdx_cases (key : α → K) (l : List α) (cand i : ℕ) :
    (chooseIdx key l cand i = cand ∧ cand < l.length) ∨ chooseIdx key l cand i = i := by
  unfold chooseIdx
  split
  · next h => exact Or.inl ⟨rfl, h.1⟩
  · exact Or.inr rfl

/-- The index that siftDown swaps toward: the smaller-keyed of i and its two
children 2i+1, 2i+2 that exist. -/
def smallestIdx (key : α → K) (l : List α) (i : ℕ) : ℕ :=
  chooseIdx key l (2 * i + 2) (chooseIdx key l (2 * i + 1) i)

theorem smallestIdx_ne_imp (key : α → K) (l : List α) (i : ℕ)
    (h : smallestIdx key l i ≠ i) :
    i < smallestIdx key l i ∧ smallestIdx key l i < l.length := by
  have h1 := chooseIdx_cases key l (2 * i + 1) i
  have h2 := chooseIdx_cases key l (2 * i + 2) (chooseIdx key l (2 * i + 1) i)
  unfold smallestIdx at h ⊢
  omega

/-- siftDown (minheap.go lines 78-96 / maxheap.go lines 66-84): restore the
heap property moving down from index i. -/
def siftDownBy (key : α → K) (l : List α) (i : ℕ) : List α :=
  if _hs : smallestIdx key l i = i then l
  else siftDownBy key (swapAt l i (smallestIdx key l i)) (smallestIdx key l i)
termination_by l.length - i
decreasing_by
  have hb := smallestIdx_ne_imp key l i _hs
  rw [swapAt_length]
  exact Nat.sub_lt_sub_left (Nat.lt_trans hb.1 hb.2) hb.1

/-- Push (minheap.go lines 33-36 / maxheap.go lines 21-24): append then
sift up from the last index. -/
def pushBy (key : α → K) (l : List α) (x : α) : List α :=
  siftUpBy key (l ++ [x]) l.length

/-- Pop (minheap.go lines 39-49 / maxheap.go lines 27-37): return the root,
move the last element to the root, shrink, sift down.  Returns none (Go nil)
on the empty heap. -/
def popBy (key : α → K) (l : List α) : Option α × List α :=
  match l with
  | [] => (none, [])
  | a :: rest =>
    let lastIndex := (a :: rest).length - 1
    let l0 := (a :: rest).set 0 ((a :: rest).getD lastIndex default)
    (some a, siftDownBy key (l0.take lastIndex) 0)

/-- Key of the entry at index j (default-valued out of range). -/
def kAt (key : α → K) (l : List α) (j : ℕ) : K :=
  key (l.getD j default)

/-- The zero-based binary heap property for the key projection: every
non-root entry is ≥ its parent entry at index (j-1)/2. -/
def IsHeapBy (key : α → K) (l : List α) : Prop :=
  ∀ j, 0 < j → j < l.length → kAt key l ((j - 1) / 2) ≤ kAt key l j

instance (key : α → K) (l : List α) : Decidable (IsHeapBy key l) :=
  decidable_of_iff
    (∀ j < l.length, 0 < j → kAt key l ((j - 1) / 2) ≤ kAt key l j)
    ⟨fun h j h0 hl => h j hl h0, fun h j hl h0 => h j h0 hl⟩

theorem siftUpBy_length (key : α → K) (i : ℕ) (l : List α) :
    (siftUpBy key l i).length = l.length := by
  induction i using Nat.strong_induction_on generalizing l with
  | _ i ih =>
    rw [siftUpBy]
    split
    · rfl
    · split
      · next h0 _ =>
        rw [ih ((i - 1) / 2) (by omega)]
        simp
      · rfl

theorem siftDownBy_length (key : α → K) (l : List α) (i : ℕ) :
    (siftDownBy key l i).length = l.length := by
  generalize hk : l.length - i = k
  induction k using Nat.strong_induction_on generalizing l i with
  | _ k ih =>
    rw [siftDownBy]
    split
    · rfl
    · next hne =>
      have hb := smallestIdx_ne_imp key l i hne
      rw [ih ((swapAt l i (smallestIdx key l i)).length - smallestIdx key l i)
        (by rw [swapAt_length]; omega) _ _ rfl]
      simp

theorem getD_swapAt (l : List α) {i j : ℕ} (hi : i < l.length) (hj : j < l.length)
    (k : ℕ) :
    (swapAt l i j).getD k default =
      if k = j then l.getD i default
      else if k = i then l.getD j default
      else l.getD k default := by
  unfold swapAt
  rw [List.getD_eq_getElem?_getD, List.getElem?_set, List.getElem?_set]
  rcases eq_or_ne k j with hkj | hkj
  · subst hkj
    simp [hj, List.getD_eq_getElem?_getD]
  · rcases eq_or_ne k i with hki | hki
    · subst hki
      simp [Ne.symm hkj, hkj, hi, List.getD_eq_getElem?_getD]
    · simp [Ne.symm hkj, Ne.symm hki, hkj, hki, List.getD_eq_getElem?_getD]

theorem kAt_swapAt (key : α → K) (l : List α) {i j : ℕ} (hi : i < l.length)
    (hj : j < l.length) (k : ℕ) :
    kAt key (swapAt l i j) k =
      if k = j then kAt key l i else if k = i then kAt key l j else kAt key l k := by
  unfold kAt
  rw [getD_swapAt l hi hj k]
  split
  · rfl
  · split <;> rfl

theorem set_getD_self (l : List α) {i : ℕ} (hi : i < l.length) :
    l.set i (l.getD i default) = l := by
  apply List.ext_getElem?
  intro k
  rw [List.getElem?_set]
  rcases eq_or_ne i k with rfl | hik
  · rw [if_pos rfl, if_pos hi, List.getD_eq_getElem _ _ hi, List.getElem?_eq_getElem hi]
  · rw [if_neg hik]

theorem swapAt_perm [DecidableEq α] (l : List α) {i j : ℕ} (hi : i < l.length)
    (hj : j < l.length) : (swapAt l i j).Perm l := by
  rcases eq_or_ne i j with rfl | hij
  · unfold swapAt
    rw [set_getD_self _ (by simpa using hi), set_getD_self _ hi]
  · rw [List.perm_iff_count]
    intro a
    unfold swapAt
    have hj' : j < (l.set i (l.getD j default)).length := by simpa using hj
    rw [List.count_set _ _ _ _ hj', List.count_set _ _ _ _ hi]
    simp only [List.getD_eq_getElem _ _ hi, List.getD_eq_getElem _ _ hj,
      List.getElem_set_ne hij]
    have hci : l[i] = a → 1 ≤ l.count a := fun h =>
      List.count_pos_iff.2 (h ▸ List.getElem_mem hi)
    have hcj : l[j] = a → 1 ≤ l.count a := fun h =>
      List.count_pos_iff.2 (h ▸ List.getElem_mem hj)
    by_cases hia : l[i] = a <;> by_cases hja : l[j] = a
    · have h1 := hci hia
      simp only [hia, hja, beq_self_eq_true, if_pos rfl, if_true]
      omega
    · have h1 := hci hia
      simp only [beq_iff_eq, hia, hja, if_true, if_false]
      omega
    · have h1 := hcj hja
      simp only [beq_iff_eq, hia, hja, if_true, if_false]
      omega
    · simp only [beq_iff_eq, hia, hja, if_false]
      omega

theorem siftUpBy_perm [DecidableEq α] (key : α → K) (i : ℕ) (l : List α)
    (hi : i < l.length) : (siftUpBy key l i).Perm l := by
  induction i using Nat.strong_induction_on generalizing l with
  | _ i ih =>
    rw [siftUpBy]
    split
    · exact List.Perm.refl l
    · next h0 =>
      split
      · have hp : (i - 1) / 2 < l.length := by omega
        refine ((ih ((i - 1) / 2) (by omega) _ ?_).trans (swapAt_perm l hi hp))
        simpa using hp
      · exact List.Perm.refl l

theorem siftDownBy_perm [DecidableEq α] (key : α → K) (l : List α) (i : ℕ) :
    (siftDownBy key l i).Perm l := by
  generalize hk : l.length - i = k
  induction k using Nat.strong_induction_on generalizing l i with
  | _ k ih =>
    rw [siftDownBy]
    split
    · exact List.Perm.refl l
    · next hne =>
      have hb := smallestIdx_ne_imp key l i hne
      have hi : i < l.length := Nat.lt_trans hb.1 hb.2
      refine (ih ((swapAt l i (smallestIdx key l i)).length - smallestIdx key l i)
        (by rw [swapAt_length]; omega) _ _ rfl).trans (swapAt_perm l hi hb.2)

theorem pushBy_perm [DecidableEq α] (key : α → K) (l : List α) (x : α) :
    (pushBy key l x).Perm (x :: l) := by
  unfold pushBy
  exact (siftUpBy_perm key l.length (l ++ [x]) (by simp)).trans
    (List.perm_append_singleton x l)

theorem pushBy_length (key : α → K) (l : List α) (x : α) :
    (pushBy key l x).length = l.length + 1 := by
  unfold pushBy
  rw [siftUpBy_length]
  simp

theorem popBy_nil (key : α → K) : popBy key ([] : List α) = (none, []) := rfl

theorem popBy_fst (key : α → K) (a : α) (rest : List α) :
    (popBy key (a :: rest)).1 = some a := rfl

theorem popBy_snd_length (key : α → K) (a : α) (rest : List α) :
    (popBy key (a :: rest)).2.length = rest.length := by
  unfold popBy
  rw [siftDownBy_length]
  simp

theorem popBy_snd_perm [DecidableEq α] (key : α → K) (a : α) (rest : List α) :
    (popBy key (a :: rest)).2.Perm rest := by
  unfold popBy
  refine (siftDownBy_perm key _ 0).trans ?_
  rcases List.eq_nil_or_concat rest with rfl | ⟨r, b, rfl⟩
  · simp
  · simp only [List.concat_eq_append]
    have hlen : (a :: (r ++ [b])).length - 1 = r.length + 1 := by simp
    have hlast : (a :: (r ++ [b])).getD ((a :: (r ++ [b])).length - 1) default = b := by
      rw [hlen, List.getD_cons_succ, List.getD_eq_getElem?_getD,
        List.getElem?_concat_length]
      rfl
    rw [hlast]
    have hset : (a :: (r ++ [b])).set 0 b = b :: (r ++ [b]) := rfl
    rw [hset, hlen, List.take_succ_cons, List.take_left]
    exact (List.perm_append_singleton b r).symm

/-- The heap property possibly broken only along the edge into index i
(the entry there may be smaller than its parent), the children of i still
being bounded below by i's parent.  This is the siftUp loop invariant. -/
def UpInv (key : α → K) (l : List α) (i : ℕ) : Prop :=
  (∀ j, 0 < j → j < l.length → j ≠ i → kAt key l ((j - 1) / 2) ≤ kAt key l j) ∧
  (∀ j, 0 < j → j < l.length → (j - 1) / 2 = i → 0 < i →
    kAt key l ((i - 1) / 2) ≤ kAt key l j)

/-- The heap property possibly broken only along the edges out of index i
(the entry there may be larger than its children), the children of i still
being bounded below by i's parent.  This is the siftDown loop invariant. -/
def DownInv (key : α → K) (l : List α) (i : ℕ) : Prop :=
  (∀ j, 0 < j → j < l.length → (j - 1) / 2 ≠ i → kAt key l ((j - 1) / 2) ≤ kAt key l j) ∧
  (∀ j, 0 < j → j < l.length → (j - 1) / 2 = i → 0 < i →
    kAt key l ((i - 1) / 2) ≤ kAt key l j)

theorem siftUpBy_isHeap (key : α → K) (i : ℕ) (l : List α)
    (hi : i < l.length) (hup : UpInv key l i) :
    IsHeapBy key (siftUpBy key l i) := by
  induction i using Nat.strong_induction_on generalizing l with
  | _ i ih =>
    obtain ⟨h1, h2⟩ := hup
    rw [siftUpBy]
    split
    · next hzero =>
      subst hzero
      intro j hj0 hjl
      exact h1 j hj0 hjl (by omega)
    · next hzero =>
      split
      · next hlt =>
        have hlt' : kAt key l i < kAt key l ((i - 1) / 2) := hlt
        have hp : (i - 1) / 2 < l.length := by omega
        have hk : ∀ k, kAt key (swapAt l i ((i - 1) / 2)) k =
            if k = (i - 1) / 2 then kAt key l i
            else if k = i then kAt key l ((i - 1) / 2) else kAt key l k :=
          fun k => kAt_swapAt key l hi hp k
        have hval : ∀ k, k ≠ (i - 1) / 2 → k ≠ i →
            kAt key (swapAt l i ((i - 1) / 2)) k = kAt key l k := by
          intro k hk1 hk2
          rw [hk k, if_neg hk1, if_neg hk2]
        have hvp : kAt key (swapAt l i ((i - 1) / 2)) ((i - 1) / 2) = kAt key l i := by
          rw [hk _, if_pos rfl]
        have hvi : kAt key (swapAt l i ((i - 1) / 2)) i = kAt key l ((i - 1) / 2) := by
          rw [hk i, if_neg (by omega), if_pos rfl]
        refine ih ((i - 1) / 2) (by omega) _ (by simpa using hp) ⟨?_, ?_⟩
        · intro j hj0 hjl hjne
          rw [swapAt_length] at hjl
          rcases eq_or_ne j i with hji | hji
          · subst hji
            rw [hvp, hvi]
            exact hlt'.le
          · rcases eq_or_ne ((j - 1) / 2) ((i - 1) / 2) with hpj | hpj
            · rw [hpj, hvp, hval j hjne hji]
              have hb := h1 j hj0 hjl hji
              rw [hpj] at hb
              exact le_trans hlt'.le hb
            · rcases eq_or_ne ((j - 1) / 2) i with hpi2 | hpi2
              · rw [hpi2, hvi, hval j hjne hji]
                exact h2 j hj0 hjl hpi2 (by omega)
              · rw [hval _ hpj hpi2, hval j hjne hji]
                exact h1 j hj0 hjl hji
        · intro j hj0 hjl hpj hp0
          rw [swapAt_length] at hjl
          rw [hval (((i - 1) / 2 - 1) / 2) (by omega) (by omega)]
          have hpar : kAt key l (((i - 1) / 2 - 1) / 2) ≤ kAt key l ((i - 1) / 2) :=
            h1 ((i - 1) / 2) hp0 hp (by omega)
          rcases eq_or_ne j i with hji | hji
          · subst hji
            rw [hvi]
            exact hpar
          · rw [hval j (by omega) hji]
            have hb := h1 j hj0 hjl hji
            rw [hpj] at hb
            exact le_trans hpar hb
      · next hge =>
        intro j hj0 hjl
        rcases eq_or_ne j i with hji | hji
        · subst hji
          exact le_of_not_lt hge
        · exact h1 j hj0 hjl hji

theorem kAt_append (key : α → K) (l : List α) (x : α) {k : ℕ} (hk : k < l.length) :
    kAt key (l ++ [x]) k = kAt key l k := by
  unfold kAt
  rw [List.getD_eq_getElem?_getD, List.getD_eq_getElem?_getD,
    List.getElem?_append_left hk]

theorem pushBy_isHeap (key : α → K) (l : List α) (x : α) (hh : IsHeapBy key l) :
    IsHeapBy key (pushBy key l x) := by
  unfold pushBy
  refine siftUpBy_isHeap key l.length _ (by simp) ⟨?_, ?_⟩
  · intro j hj0 hjl hjne
    simp only [List.length_append, List.length_singleton] at hjl
    have hjn : j < l.length := by omega
    rw [kAt_append key l x hjn, kAt_append key l x (by omega)]
    exact hh j hj0 hjn
  · intro j hj0 hjl hpj _
    simp only [List.length_append, List.length_singleton] at hjl
    omega

theorem chooseIdx_le_snd (key : α → K) (l : List α) (c i : ℕ) :
    kAt key l (chooseIdx key l c i) ≤ kAt key l i := by
  unfold chooseIdx
  split
  · next h => exact h.2.le
  · exact le_refl _

theorem chooseIdx_le_fst (key : α → K) (l : List α) {c : ℕ} (i : ℕ)
    (hc : c < l.length) : kAt key l (chooseIdx key l c i) ≤ kAt key l c := by
  unfold chooseIdx
  split
  · exact le_refl _
  · next h =>
    push_neg at h
    exact h hc

theorem smallestIdx_le_self (key : α → K) (l : List α) (i : ℕ) :
    kAt key l (smallestIdx key l i) ≤ kAt key l i := by
  unfold smallestIdx
  exact le_trans (chooseIdx_le_snd key l _ _) (chooseIdx_le_snd key l _ _)

theorem smallestIdx_le_left (key : α → K) (l : List α) (i : ℕ)
    (hl : 2 * i + 1 < l.length) :
    kAt key l (smallestIdx key l i) ≤ kAt key l (2 * i + 1) := by
  unfold smallestIdx
  exact le_trans (chooseIdx_le_snd key l _ _) (chooseIdx_le_fst key l _ hl)

theorem smallestIdx_le_right (key : α → K) (l : List α) (i : ℕ)
    (hr : 2 * i + 2 < l.length) :
    kAt key l (smallestIdx key l i) ≤ kAt key l (2 * i + 2) := by
  unfold smallestIdx
  exact chooseIdx_le_fst key l _ hr

theorem smallestIdx_child (key : α → K) (l : List α) (i : ℕ)
    (hs : smallestIdx key l i ≠ i) :
    smallestIdx key l i = 2 * i + 1 ∨ smallestIdx key l i = 2 * i + 2 := by
  have h1 := chooseIdx_cases key l (2 * i + 1) i
  have h2 := chooseIdx_cases key l (2 * i + 2) (chooseIdx key l (2 * i + 1) i)
  unfold smallestIdx at hs ⊢
  omega

theorem siftDownBy_isHeap (key : α → K) (l : List α) (i : ℕ)
    (hdown : DownInv key l i) : IsHeapBy key (siftDownBy key l i) := by
  generalize hm : l.length - i = m
  induction m using Nat.strong_induction_on generalizing l i with
  | _ m ih =>
    obtain ⟨h1, h2⟩ := hdown
    rw [siftDownBy]
    split
    · next hs =>
      intro j hj0 hjl
      rcases eq_or_ne ((j - 1) / 2) i with hpj | hpj
      · have hchild : j = 2 * i + 1 ∨ j = 2 * i + 2 := by omega
        rw [hpj]
        rcases hchild with rfl | rfl
        · have hle := smallestIdx_le_left key l i hjl
          rwa [hs] at hle
        · have hle := smallestIdx_le_right key l i hjl
          rwa [hs] at hle
      · exact h1 j hj0 hjl hpj
    · next hs =>
      have hb := smallestIdx_ne_imp key l i hs
      have hi : i < l.length := lt_trans hb.1 hb.2
      have hcs := smallestIdx_child key l i hs
      have hps : (smallestIdx key l i - 1) / 2 = i := by omega
      have hk : ∀ k, kAt key (swapAt l i (smallestIdx key l i)) k =
          if k = smallestIdx key l i then kAt key l i
          else if k = i then kAt key l (smallestIdx key l i) else kAt key l k :=
        fun k => kAt_swapAt key l hi hb.2 k
      have hval : ∀ k, k ≠ smallestIdx key l i → k ≠ i →
          kAt key (swapAt l i (smallestIdx key l i)) k = kAt key l k := by
        intro k hk1 hk2
        rw [hk k, if_neg hk1, if_neg hk2]
      have hvs : kAt key (swapAt l i (smallestIdx key l i)) (smallestIdx key l i) =
          kAt key l i := by
        rw [hk _, if_pos rfl]
      have hvi : kAt key (swapAt l i (smallestIdx key l i)) i =
          kAt key l (smallestIdx key l i) := by
        rw [hk i, if_neg (by omega), if_pos rfl]
      refine ih ((swapAt l i (smallestIdx key l i)).length - smallestIdx key l i)
        (by rw [swapAt_length]; omega) _ _ ⟨?_, ?_⟩ rfl
      · intro j hj0 hjl hpj
        rw [swapAt_length] at hjl
        rcases eq_or_ne j (smallestIdx key l i) with hjs | hjs
        · subst hjs
          rw [hps, hvi, hvs]
          exact smallestIdx_le_self key l i
        · rcases eq_or_ne j i with hji | hji
          · rw [hval ((j - 1) / 2) (by omega) (by omega), hji, hvi]
            exact h2 (smallestIdx key l i) (by omega) hb.2 hps (by omega)
          · rcases eq_or_ne ((j - 1) / 2) i with hpi | hpi
            · have hchild : j = 2 * i + 1 ∨ j = 2 * i + 2 := by omega
              rw [hpi, hvi, hval j hjs hji]
              rcases hchild with rfl | rfl
              · exact smallestIdx_le_left key l i hjl
              · exact smallestIdx_le_right key l i hjl
            · rw [hval ((j - 1) / 2) hpj hpi, hval j hjs hji]
              exact h1 j hj0 hjl hpi
      · intro j hj0 hjl hpj hs0
        rw [swapAt_length] at hjl
        rw [hps, hvi]
        have hjne : j ≠ smallestIdx key l i := by omega
        have hji : j ≠ i := by omega
        rw [hval j hjne hji]
        have hb1 := h1 j hj0 hjl (by omega)
        rwa [hpj] at hb1

theorem popBy_isHeap (key : α → K) (l : List α) (hh : IsHeapBy key l) :
    IsHeapBy key ((popBy key l).2) := by
  cases l with
  | nil =>
    intro j hj0 hjl
    simp [popBy] at hjl
  | cons a rest =>
    unfold popBy
    apply siftDownBy_isHeap
    refine ⟨?_, ?_⟩
    · intro j hj0 hjl hpj
      rw [List.length_take, List.length_set] at hjl
      have hjr : j < rest.length := by simp at hjl; omega
      have hval : ∀ k, 0 < k → k < rest.length →
          kAt key (((a :: rest).set 0
            ((a :: rest).getD ((a :: rest).length - 1) default)).take
              ((a :: rest).length - 1)) k = kAt key (a :: rest) k := by
        intro k hk0 hkr
        unfold kAt
        rw [List.getD_eq_getElem?_getD, List.getD_eq_getElem?_getD,
          List.getElem?_take, if_pos (by simp; omega),
          List.getElem?_set_ne (by omega), ← List.getD_eq_getElem?_getD]
      rw [hval j hj0 hjr, hval ((j - 1) / 2) (by omega) (by omega)]
      exact hh j hj0 (by simp; omega)
    · intro j hj0 hjl hpj h0
      omega

theorem isHeapBy_root_le (key : α → K) (l : List α) (hh : IsHeapBy key l) :
    ∀ j, j < l.length → kAt key l 0 ≤ kAt key l j := by
  intro j
  induction j using Nat.strong_induction_on with
  | _ j ih =>
    intro hjl
    rcases Nat.eq_zero_or_pos j with rfl | hj0
    · exact le_refl _
    · exact le_trans (ih ((j - 1) / 2) (by omega) (by omega)) (hh j hj0 hjl)

theorem isHeapBy_head_le (key : α → K) (l : List α) (hh : IsHeapBy key l) :
    ∀ x ∈ l, kAt key l 0 ≤ key x := by
  intro x hx
  obtain ⟨j, hjl, rfl⟩ := List.mem_iff_getElem.1 hx
  have hle := isHeapBy_root_le key l hh j hjl
  simp only [kAt] at hle ⊢
  rwa [List.getD_eq_getElem _ _ hjl] at hle

/-- Popping every element off a heap in order (used to model the
back-to-front extraction loops over the result heaps). -/
def popListBy (key : α → K) : List α → List α
  | [] => []
  | a :: rest => a :: popListBy key (popBy key (a :: rest)).2
termination_by l => l.length
decreasing_by
  rw [popBy_snd_length]
  simp

theorem popListBy_perm [DecidableEq α] (key : α → K) (l : List α) :
    (popListBy key l).Perm l := by
  generalize hn : l.length = n
  induction n using Nat.strong_induction_on generalizing l with
  | _ n ih =>
    cases l with
    | nil => rw [popListBy]
    | cons a rest =>
      have hn' : rest.length + 1 = n := by simpa using hn
      rw [popListBy]
      refine List.Perm.cons a ?_
      have hp := popBy_snd_perm key a rest
      have hrec := ih rest.length (by omega) (popBy key (a :: rest)).2
        (popBy_snd_length key a rest)
      exact hrec.trans hp

theorem popListBy_length [DecidableEq α] (key : α → K) (l : List α) :
    (popListBy key l).length = l.length :=
  (popListBy_perm key l).length_eq

theorem popListBy_sorted [DecidableEq α] (key : α → K) (l : List α)
    (hh : IsHeapBy key l) :
    List.Sorted (fun x y => key x ≤ key y) (popListBy key l) := by
  generalize hn : l.length = n
  induction n using Nat.strong_induction_on generalizing l with
  | _ n ih =>
    cases l with
    | nil => rw [popListBy]; exact List.sorted_nil
    | cons a rest =>
      have hn' : rest.length + 1 = n := by simpa using hn
      rw [popListBy, List.sorted_cons]
      constructor
      · intro b hb
        have hbsnd : b ∈ (popBy key (a :: rest)).2 :=
          (popListBy_perm key _).mem_iff.1 hb
        have hbrest : b ∈ rest := (popBy_snd_perm key a rest).mem_iff.1 hbsnd
        have hle := isHeapBy_head_le key (a :: rest) hh b
          (List.mem_cons_of_mem a hbrest)
        simpa [kAt] using hle
      · exact ih rest.length (by omega) _ (popBy_isHeap key _ hh)
          (popBy_snd_length key a rest)

end GenericHeap

/-- Key ordering the MinHeap (comparisons on Dist with <). -/
def minKey (x : NodeHeap) : ℚ := x.Dist

/-- Key ordering the MaxHeap: the order dual of Dist, so that the source's
comparisons with > on Dist become < on the key. -/
def maxKey (x : NodeHeap) : ℚᵒᵈ := OrderDual.toDual x.Dist

/-- structs.MinHeap (structs/minheap.go lines 16-18): array-backed binary
min-heap of NodeHeap entries, smallest Dist at the root. -/
structure MinHeap where
  nodes : List NodeHeap
deriving DecidableEq, Repr

/-- structs.MaxHeap (structs/maxheap.go lines 4-6): array-backed binary
max-heap of NodeHeap entries, largest Dist at the root. -/
structure MaxHeap where
  nodes : List NodeHeap
deriving DecidableEq, Repr

/-- NewMinHeap (minheap.go lines 21-25); capacity is not modelled. -/
def NewMinHeap : MinHeap := ⟨[]⟩

/-- NewMaxHeap (maxheap.go lines 9-13). -/
def NewMaxHeap : MaxHeap := ⟨[]⟩

/-- MinHeap.Len (minheap.go lines 28-30). -/
def MinHeap.Len (h : MinHeap) : ℕ := h.nodes.length

/-- MinHeap.Push (minheap.go lines 33-36). -/
def MinHeap.Push (h : MinHeap) (n : NodeHeap) : MinHeap := ⟨pushBy minKey h.nodes n⟩

/-- MinHeap.Pop (minheap.go lines 39-49): returns none (Go nil) on the
empty heap, otherwise the root, together with the shrunk heap. -/
def MinHeap.Pop (h : MinHeap) : Option NodeHeap × MinHeap :=
  ((popBy minKey h.nodes).1, ⟨(popBy minKey h.nodes).2⟩)

/-- MinHeap.Peek (minheap.go lines 52-57). -/
def MinHeap.Peek (h : MinHeap) : Option NodeHeap := h.nodes.head?

/-- MinHeap.Reset (minheap.go lines 60-62); capacity is not modelled. -/
def MinHeap.Reset (_h : MinHeap) : MinHeap := ⟨[]⟩

/-- MaxHeap.Len (maxheap.go lines 16-18). -/
def MaxHeap.Len (h : MaxHeap) : ℕ := h.nodes.length

/-- MaxHeap.Push (maxheap.go lines 21-24). -/
def MaxHeap.Push (h : MaxHeap) (n : NodeHeap) : MaxHeap := ⟨pushBy maxKey h.nodes n⟩

/-- MaxHeap.Pop (maxheap.go lines 27-37). -/
def MaxHeap.Pop (h : MaxHeap) : Option NodeHeap × MaxHeap :=
  ((popBy maxKey h.nodes).1, ⟨(popBy maxKey h.nodes).2⟩)

/-- MaxHeap.Peek (maxheap.go lines 40-45). -/
def MaxHeap.Peek (h : MaxHeap) : Option NodeHeap := h.nodes.head?

/-- MaxHeap.Reset (maxheap.go lines 48-50). -/
def MaxHeap.Reset (_h : MaxHeap) : MaxHeap := ⟨[]⟩

/-- An operation on one of the priority queues, for stating properties of
arbitrary Push/Pop sequences. -/
inductive HeapOp where
  | push (x : NodeHeap) : HeapOp
  | pop : HeapOp
deriving DecidableEq, Repr

/-- Run a sequence of operations on a MinHeap, left to right. -/
def minRun (h : MinHeap) : List HeapOp → MinHeap
  | [] => h
  | .push x :: rest => minRun (h.Push x) rest
  | .pop :: rest => minRun (h.Pop).2 rest

/-- Run a sequence of operations on a MaxHeap, left to right. -/
def maxRun (h : MaxHeap) : List HeapOp → MaxHeap
  | [] => h
  | .push x :: rest => maxRun (h.Push x) rest
  | .pop :: rest => maxRun (h.Pop).2 rest

/-- Number of pushes in an operation sequence. -/
def pushCount : List HeapOp → ℕ
  | [] => 0
  | .push _ :: rest => pushCount rest + 1
  | .pop :: rest => pushCount rest

/-- Number of successful pops in a MinHeap run: pops hitting a non-empty
heap (a pop of an empty heap returns nil and removes nothing). -/
def minOkPops (h : MinHeap) : List HeapOp → ℕ
  | [] => 0
  | .push x :: rest => minOkPops (h.Push x) rest
  | .pop :: rest => (if h.Len = 0 then 0 else 1) + minOkPops (h.Pop).2 rest

/-- Number of successful pops in a MaxHeap run. -/
def maxOkPops (h : MaxHeap) : List HeapOp → ℕ
  | [] => 0
  | .push x :: rest => maxOkPops (h.Push x) rest
  | .pop :: rest => (if h.Len = 0 then 0 else 1) + maxOkPops (h.Pop).2 rest

theorem popBy_len_zero {α K : Type} [Inhabited α] [LinearOrder K] (key : α → K)
    (l : List α) (h : l ≠ []) : (popBy key l).2.length + 1 = l.length := by
  cases l with
  | nil => exact absurd rfl h
  | cons a rest => rw [popBy_snd_length]; rfl

theorem minRun_len (ops : List HeapOp) (h : MinHeap) :
    (minRun h ops).Len + minOkPops h ops = h.Len + pushCount ops := by
  induction ops generalizing h with
  | nil => simp [minRun, minOkPops, pushCount]
  | cons op rest ih =>
    cases op with
    | push x =>
      rw [minRun, minOkPops, pushCount, ih]
      have : (h.Push x).Len = h.Len + 1 := pushBy_length minKey h.nodes x
      omega
    | pop =>
      rw [minRun, minOkPops, pushCount]
      have hrec := ih (h.Pop).2
      by_cases hz : h.Len = 0
      · have hnil : h.nodes = [] := List.length_eq_zero.1 hz
        have : (h.Pop).2.Len = 0 := by
          simp [MinHeap.Pop, hnil, popBy_nil, MinHeap.Len]
        rw [if_pos hz]
        omega
      · have hnil : h.nodes ≠ [] := fun hc => hz (by simp [MinHeap.Len, hc])
        have : (h.Pop).2.Len + 1 = h.Len := popBy_len_zero minKey h.nodes hnil
        rw [if_neg hz]
        omega

theorem maxRun_len (ops : List HeapOp) (h : MaxHeap) :
    (maxRun h ops).Len + maxOkPops h ops = h.Len + pushCount ops := by
  induction ops generalizing h with
  | nil => simp [maxRun, maxOkPops, pushCount]
  | cons op rest ih =>
    cases op with
    | push x =>
      rw [maxRun, maxOkPops, pushCount, ih]
      have : (h.Push x).Len = h.Len + 1 := pushBy_length maxKey h.nodes x
      omega
    | pop =>
      rw [maxRun, maxOkPops, pushCount]
      have hrec := ih (h.Pop).2
      by_cases hz : h.Len = 0
      · have hnil : h.nodes = [] := List.length_eq_zero.1 hz
        have : (h.Pop).2.Len = 0 := by
          simp [MaxHeap.Pop, hnil, popBy_nil, MaxHeap.Len]
        rw [if_pos hz]
        omega
      · have hnil : h.nodes ≠ [] := fun hc => hz (by simp [MaxHeap.Len, hc])
        have : (h.Pop).2.Len + 1 = h.Len := popBy_len_zero maxKey h.nodes hnil
        rw [if_neg hz]
        omega

theorem minRun_isHeap (ops : List HeapOp) (h : MinHeap)
    (hh : IsHeapBy minKey h.nodes) : IsHeapBy minKey (minRun h ops).nodes := by
  induction ops generalizing h with
  | nil => exact hh
  | cons op rest ih =>
    cases op with
    | push x => exact ih _ (pushBy_isHeap minKey h.nodes x hh)
    | pop => exact ih _ (popBy_isHeap minKey h.nodes hh)

theorem maxRun_isHeap (ops : List HeapOp) (h : MaxHeap)
    (hh : IsHeapBy maxKey h.nodes) : IsHeapBy maxKey (maxRun h ops).nodes := by
  induction ops generalizing h with
  | nil => exact hh
  | cons op rest ih =>
    cases op with
    | push x => exact ih _ (pushBy_isHeap maxKey h.nodes x hh)
    | pop => exact ih _ (popBy_isHeap maxKey h.nodes hh)

theorem isHeapBy_nil {α K : Type} [Inhabited α] [LinearOrder K] (key : α → K) :
    IsHeapBy key ([] : List α) := by
  intro j h0 hj
  simp at hj

theorem minHeap_pop_spec (h : MinHeap) (hh : IsHeapBy minKey h.nodes)
    (hne : h.nodes ≠ []) :
    ∃ x, (h.Pop).1 = some x ∧ h.Peek = some x ∧
      (∀ y ∈ h.nodes, x.Dist ≤ y.Dist) ∧
      h.nodes.Perm (x :: ((h.Pop).2).nodes) := by
  obtain ⟨a, rest, hcons⟩ := List.exists_cons_of_ne_nil hne
  refine ⟨a, ?_, ?_, ?_, ?_⟩
  · show (popBy minKey h.nodes).1 = some a
    rw [hcons]
    exact popBy_fst minKey a rest
  · show h.nodes.head? = some a
    rw [hcons]
    rfl
  · intro y hy
    have hle := isHeapBy_head_le minKey h.nodes hh y hy
    simpa [kAt, hcons, minKey] using hle
  · show h.nodes.Perm (a :: (popBy minKey h.nodes).2)
    rw [hcons]
    exact (List.Perm.cons a (popBy_snd_perm minKey a rest)).symm

theorem maxHeap_pop_spec (h : MaxHeap) (hh : IsHeapBy maxKey h.nodes)
    (hne : h.nodes ≠ []) :
    ∃ x, (h.Pop).1 = some x ∧ h.Peek = some x ∧
      (∀ y ∈ h.nodes, y.Dist ≤ x.Dist) ∧
      h.nodes.Perm (x :: ((h.Pop).2).nodes) := by
  obtain ⟨a, rest, hcons⟩ := List.exists_cons_of_ne_nil hne
  refine ⟨a, ?_, ?_, ?_, ?_⟩
  · show (popBy maxKey h.nodes).1 = some a
    rw [hcons]
    exact popBy_fst maxKey a rest
  · show h.nodes.head? = some a
    rw [hcons]
    rfl
  · intro y hy
    have hle := isHeapBy_head_le maxKey h.nodes hh y hy
    simpa [kAt, hcons, maxKey, OrderDual.toDual_le_toDual] using hle
  · show h.nodes.Perm (a :: (popBy maxKey h.nodes).2)
    rw [hcons]
    exact (List.Perm.cons a (popBy_snd_perm maxKey a rest)).symm

/-- C7: after any sequence of Push and Pop operations starting from a fresh
queue, MinHeap.Pop removes and returns an element of minimal Dist among the
stored elements and MaxHeap.Pop one of maximal Dist, Peek returns the same
element without removing it, and Len equals the number of pushes minus the
number of successful pops (stated subtraction-free as Len + pops = pushes). -/
theorem C7_minmax_heap_correct (ops : List HeapOp) :
    ((minRun NewMinHeap ops).Len + minOkPops NewMinHeap ops = pushCount ops) ∧
    ((maxRun NewMaxHeap ops).Len + maxOkPops NewMaxHeap ops = pushCount ops) ∧
    ((minRun NewMinHeap ops).nodes ≠ [] →
      ∃ x, ((minRun NewMinHeap ops).Pop).1 = some x ∧
        (minRun NewMinHeap ops).Peek = some x ∧
        (∀ y ∈ (minRun NewMinHeap ops).nodes, x.Dist ≤ y.Dist) ∧
        (minRun NewMinHeap ops).nodes.Perm
          (x :: (((minRun NewMinHeap ops).Pop).2).nodes)) ∧
    ((maxRun NewMaxHeap ops).nodes ≠ [] →
      ∃ x, ((maxRun NewMaxHeap ops).Pop).1 = some x ∧
        (maxRun NewMaxHeap ops).Peek = some x ∧
        (∀ y ∈ (maxRun NewMaxHeap ops).nodes, y.Dist ≤ x.Dist) ∧
        (maxRun NewMaxHeap ops).nodes.Perm
          (x :: (((maxRun NewMaxHeap ops).Pop).2).nodes)) := by
  refine ⟨by simpa [NewMinHeap, MinHeap.Len] using minRun_len ops NewMinHeap,
    by simpa [NewMaxHeap, MaxHeap.Len] using maxRun_len ops NewMaxHeap, ?_, ?_⟩
  · exact fun hne => minHeap_pop_spec _
      (minRun_isHeap ops NewMinHeap (isHeapBy_nil minKey)) hne
  · exact fun hne => maxHeap_pop_spec _
      (maxRun_isHeap ops NewMaxHeap (isHeapBy_nil maxKey)) hne

/-- Witness for C7 at the concrete operation sequence [Push (2,7)]. -/
theorem C7_minmax_heap_correct_witness :
    (minRun NewMinHeap [HeapOp.push ⟨2, 7⟩]).nodes ≠ [] ∧
    (maxRun NewMaxHeap [HeapOp.push ⟨2, 7⟩]).nodes ≠ [] ∧
    (∃ x, ((minRun NewMinHeap [HeapOp.push ⟨2, 7⟩]).Pop).1 = some x ∧
      (minRun NewMinHeap [HeapOp.push ⟨2, 7⟩]).Peek = some x ∧
      (∀ y ∈ (minRun NewMinHeap [HeapOp.push ⟨2, 7⟩]).nodes, x.Dist ≤ y.Dist) ∧
      (minRun NewMinHeap [HeapOp.push ⟨2, 7⟩]).nodes.Perm
        (x :: (((minRun NewMinHeap [HeapOp.push ⟨2, 7⟩]).Pop).2).nodes)) ∧
    (∃ x, ((maxRun NewMaxHeap [HeapOp.push ⟨2, 7⟩]).Pop).1 = some x ∧
      (maxRun NewMaxHeap [HeapOp.push ⟨2, 7⟩]).Peek = some x ∧
      (∀ y ∈ (maxRun NewMaxHeap [HeapOp.push ⟨2, 7⟩]).nodes, y.Dist ≤ x.Dist) ∧
      (maxRun NewMaxHeap [HeapOp.push ⟨2, 7⟩]).nodes.Perm
        (x :: (((maxRun NewMaxHeap [HeapOp.push ⟨2, 7⟩]).Pop).2).nodes)) := by
  have hmin : (minRun NewMinHeap [HeapOp.push ⟨2, 7⟩]).nodes ≠ [] := by
    simp [minRun, MinHeap.Push, pushBy, siftUpBy, NewMinHeap]
  have hmax : (maxRun NewMaxHeap [HeapOp.push ⟨2, 7⟩]).nodes ≠ [] := by
    simp [maxRun, MaxHeap.Push, pushBy, siftUpBy, NewMaxHeap]
  exact ⟨hmin, hmax, (C7_minmax_heap_correct [HeapOp.push ⟨2, 7⟩]).2.2.1 hmin,
    (C7_minmax_heap_correct [HeapOp.push ⟨2, 7⟩]).2.2.2 hmax⟩


/-!
Heap-item encoding (the third document of src/unnamed/part_009,
EncodeHeapItem lines 205-221 and DecodeHeapItem lines 224-233).

A Go float32 is modelled by its 32-bit pattern (a Nat below 2^32); the
bitwise operations of the source are expressed arithmetically:
`bits & 0x80000000 != 0` is `2^31 ≤ bits`, `^bits` on a uint32 is
`2^32 - 1 - bits`, and `bits ^ 0x80000000` adds 2^31 when the sign bit is
clear and subtracts it when set.
-/

/-- The sign-aware bit flip EncodeHeapItem applies to the distance bits
(part_009 lines 213-219): invert all bits of a negative float, flip only
the sign bit of a non-negative one. -/
def flipEnc (bits : ℕ) : ℕ :=
  if 2 ^ 31 ≤ bits then 2 ^ 32 - 1 - bits else bits + 2 ^ 31

/-- EncodeHeapItem (part_009 lines 205-221): pack the flipped distance
bits into the upper 32 bits and the id into the lower 32; panics on a
negative id or one above MaxInt32. -/
def EncodeHeapItem (dist : ℕ) (id : ℤ) : Except GoPanic ℕ :=
  if id < 0 then .error .invalidId
  else if (2 ^ 31 - 1 : ℤ) < id then .error .invalidId
  else .ok (flipEnc dist * 2 ^ 32 + id.toNat)

/-- DecodeHeapItem (part_009 lines 224-233): extract the upper 32 bits,
reverse the sign-aware flip, and return the lower 32 bits as the id. -/
def DecodeHeapItem (item : ℕ) : ℕ × ℕ :=
  (if (item / 2 ^ 32) % 2 ^ 32 < 2 ^ 31
    then 2 ^ 32 - 1 - (item / 2 ^ 32) % 2 ^ 32
    else (item / 2 ^ 32) % 2 ^ 32 - 2 ^ 31,
   item % 2 ^ 32)

/-- Magnitude-to-value map of a finite float32: sign-magnitude form with
subnormals at exponent 0 (bias 127, 23 mantissa bits). -/
def posVal (m : ℕ) : ℚ :=
  if m / 2 ^ 23 = 0 then (m % 2 ^ 23 : ℕ) * (2 : ℚ) ^ (-(149 : ℤ))
  else ((2 ^ 23 + m % 2 ^ 23 : ℕ) : ℚ) * (2 : ℚ) ^ ((m / 2 ^ 23 : ℕ) - (150 : ℤ))

/-- Real value of a finite float32 bit pattern. -/
def f32val (b : ℕ) : ℚ :=
  if b < 2 ^ 31 then posVal b else -posVal (b - 2 ^ 31)

/-- The bit pattern encodes a finite float32 (exponent field below 255). -/
def f32finite (b : ℕ) : Prop := (b / 2 ^ 23) % 2 ^ 8 ≠ 255

instance (b : ℕ) : Decidable (f32finite b) := by
  unfold f32finite
  infer_instance

/-- IEEE-754 totalOrder restricted to finite patterns: order by value,
with -0.0 below +0.0. -/
def f32TotalLT (b1 b2 : ℕ) : Prop :=
  f32val b1 < f32val b2 ∨ (f32val b1 = f32val b2 ∧ 2 ^ 31 ≤ b1 ∧ b2 < 2 ^ 31)

instance (b1 b2 : ℕ) : Decidable (f32TotalLT b1 b2) := by
  unfold f32TotalLT
  infer_instance

theorem posVal_nonneg (m : ℕ) : 0 ≤ posVal m := by
  unfold posVal
  split <;> positivity

theorem qpow_shift (e : ℤ) : (2 : ℚ) ^ (24 : ℕ) * (2 : ℚ) ^ (e - 150) =
    (2 : ℚ) ^ (23 : ℕ) * (2 : ℚ) ^ (e + 1 - 150) := by
  rw [← zpow_natCast (2 : ℚ) 24, ← zpow_natCast (2 : ℚ) 23,
    ← zpow_add₀ (by norm_num : (2 : ℚ) ≠ 0), ← zpow_add₀ (by norm_num : (2 : ℚ) ≠ 0)]
  congr 1
  ring

theorem posVal_strictMono {m1 m2 : ℕ} (h12 : m1 < m2) : posVal m1 < posVal m2 := by
  unfold posVal
  have he : m1 / 2 ^ 23 ≤ m2 / 2 ^ 23 := Nat.div_le_div_right h12.le
  have hm1q : ((m1 % 2 ^ 23 : ℕ) : ℚ) < (2 : ℚ) ^ (23 : ℕ) := by
    exact_mod_cast (show (m1 % 2 ^ 23 : ℕ) < 2 ^ 23 by omega)
  have hfrac2 : (2 : ℚ) ^ (23 : ℕ) ≤ ((2 ^ 23 + m2 % 2 ^ 23 : ℕ) : ℚ) := by
    exact_mod_cast (show (2 ^ 23 : ℕ) ≤ 2 ^ 23 + m2 % 2 ^ 23 by omega)
  have hfrac1 : ((2 ^ 23 + m1 % 2 ^ 23 : ℕ) : ℚ) < (2 : ℚ) ^ (24 : ℕ) := by
    exact_mod_cast (show (2 ^ 23 + m1 % 2 ^ 23 : ℕ) < 2 ^ 24 by omega)
  rcases lt_or_eq_of_le he with helt | heq
  · split
    · next h1 =>
      rw [if_neg (show ¬ m2 / 2 ^ 23 = 0 by omega)]
      have hlt1 : ((m1 % 2 ^ 23 : ℕ) : ℚ) * (2 : ℚ) ^ (-(149 : ℤ)) <
          (2 : ℚ) ^ (23 : ℕ) * (2 : ℚ) ^ (-(149 : ℤ)) :=
        mul_lt_mul_of_pos_right hm1q (by positivity)
      have hle2 : (2 : ℚ) ^ (23 : ℕ) * (2 : ℚ) ^ (-(149 : ℤ)) ≤
          ((2 ^ 23 + m2 % 2 ^ 23 : ℕ) : ℚ) * (2 : ℚ) ^ ((m2 / 2 ^ 23 : ℕ) - (150 : ℤ)) := by
        apply mul_le_mul hfrac2 ?_ (by positivity) (by positivity)
        apply zpow_le_zpow_right₀ (by norm_num)
        omega
      exact lt_of_lt_of_le hlt1 hle2
    · next h1 =>
      rw [if_neg (show ¬ m2 / 2 ^ 23 = 0 by omega)]
      have hstep : ((2 ^ 23 + m1 % 2 ^ 23 : ℕ) : ℚ) * (2 : ℚ) ^ ((m1 / 2 ^ 23 : ℕ) - (150 : ℤ)) <
          (2 : ℚ) ^ (24 : ℕ) * (2 : ℚ) ^ ((m1 / 2 ^ 23 : ℕ) - (150 : ℤ)) :=
        mul_lt_mul_of_pos_right hfrac1 (by positivity)
      have hle2 : (2 : ℚ) ^ (23 : ℕ) * (2 : ℚ) ^ (((m1 / 2 ^ 23 : ℕ) : ℤ) + 1 - (150 : ℤ)) ≤
          ((2 ^ 23 + m2 % 2 ^ 23 : ℕ) : ℚ) * (2 : ℚ) ^ ((m2 / 2 ^ 23 : ℕ) - (150 : ℤ)) := by
        apply mul_le_mul hfrac2 ?_ (by positivity) (by positivity)
        apply zpow_le_zpow_right₀ (by norm_num)
        omega
      calc ((2 ^ 23 + m1 % 2 ^ 23 : ℕ) : ℚ) * (2 : ℚ) ^ ((m1 / 2 ^ 23 : ℕ) - (150 : ℤ))
          < (2 : ℚ) ^ (24 : ℕ) * (2 : ℚ) ^ ((m1 / 2 ^ 23 : ℕ) - (150 : ℤ)) := hstep
        _ = (2 : ℚ) ^ (23 : ℕ) * (2 : ℚ) ^ (((m1 / 2 ^ 23 : ℕ) : ℤ) + 1 - (150 : ℤ)) :=
          qpow_shift _
        _ ≤ _ := hle2
  · have hfraclt : m1 % 2 ^ 23 < m2 % 2 ^ 23 := by omega
    rw [heq]
    split
    · next h1 =>
      apply mul_lt_mul_of_pos_right ?_ (by positivity)
      exact_mod_cast hfraclt
    · next h1 =>
      apply mul_lt_mul_of_pos_right ?_ (by positivity)
      exact_mod_cast (show (2 ^ 23 + m1 % 2 ^ 23 : ℕ) < 2 ^ 23 + m2 % 2 ^ 23 by omega)

theorem posVal_lt_iff {m1 m2 : ℕ} : posVal m1 < posVal m2 ↔ m1 < m2 := by
  constructor
  · intro h
    by_contra hc
    push_neg at hc
    rcases lt_or_eq_of_le hc with h2 | h2
    · exact absurd (posVal_strictMono h2) (not_lt.2 h.le)
    · rw [h2] at h
      exact lt_irrefl _ h
  · exact posVal_strictMono

theorem flipEnc_lt_iff {b1 b2 : ℕ} (h1 : b1 < 2 ^ 32) (h2 : b2 < 2 ^ 32) :
    flipEnc b1 < flipEnc b2 ↔ f32TotalLT b1 b2 := by
  unfold flipEnc f32TotalLT f32val
  rcases lt_or_le b1 (2 ^ 31) with hs1 | hs1 <;> rcases lt_or_le b2 (2 ^ 31) with hs2 | hs2
  · rw [if_neg (show ¬ 2 ^ 31 ≤ b1 by omega), if_neg (show ¬ 2 ^ 31 ≤ b2 by omega),
      if_pos hs1, if_pos hs2]
    constructor
    · intro h
      exact Or.inl (posVal_strictMono (by omega))
    · rintro (h | ⟨_, hneg, _⟩)
      · have hb := posVal_lt_iff.1 h
        omega
      · omega
  · rw [if_neg (show ¬ 2 ^ 31 ≤ b1 by omega), if_pos hs2, if_pos hs1,
      if_neg (show ¬ b2 < 2 ^ 31 by omega)]
    constructor
    · intro h
      omega
    · rintro (h | ⟨_, hneg, _⟩)
      · exfalso
        have hge : -posVal (b2 - 2 ^ 31) ≤ posVal b1 :=
          le_trans (neg_nonpos.2 (posVal_nonneg _)) (posVal_nonneg _)
        exact absurd h (not_lt.2 hge)
      · omega
  · rw [if_pos hs1, if_neg (show ¬ 2 ^ 31 ≤ b2 by omega),
      if_neg (show ¬ b1 < 2 ^ 31 by omega), if_pos hs2]
    constructor
    · intro _
      have hle : -posVal (b1 - 2 ^ 31) ≤ posVal b2 :=
        le_trans (neg_nonpos.2 (posVal_nonneg _)) (posVal_nonneg _)
      rcases lt_or_eq_of_le hle with hlt | heq
      · exact Or.inl hlt
      · exact Or.inr ⟨heq, by omega, hs2⟩
    · intro _
      omega
  · rw [if_pos hs1, if_pos hs2, if_neg (show ¬ b1 < 2 ^ 31 by omega),
      if_neg (show ¬ b2 < 2 ^ 31 by omega)]
    constructor
    · intro h
      refine Or.inl ?_
      have hmag : b2 - 2 ^ 31 < b1 - 2 ^ 31 := by omega
      have hpv := posVal_strictMono hmag
      linarith
    · rintro (h | ⟨_, _, hneg⟩)
      · have hpv : posVal (b2 - 2 ^ 31) < posVal (b1 - 2 ^ 31) := by linarith
        have hb := posVal_lt_iff.1 hpv
        omega
      · omega

theorem flipEnc_bound (b : ℕ) (hb : b < 2 ^ 32) : flipEnc b < 2 ^ 32 := by
  unfold flipEnc
  split <;> omega

theorem flipEnc_inj {b1 b2 : ℕ} (h1 : b1 < 2 ^ 32) (h2 : b2 < 2 ^ 32)
    (h : flipEnc b1 = flipEnc b2) : b1 = b2 := by
  unfold flipEnc at h
  rcases lt_or_le b1 (2 ^ 31) with hs1 | hs1 <;>
    rcases lt_or_le b2 (2 ^ 31) with hs2 | hs2
  · rw [if_neg (show ¬ 2 ^ 31 ≤ b1 by omega),
      if_neg (show ¬ 2 ^ 31 ≤ b2 by omega)] at h
    omega
  · rw [if_neg (show ¬ 2 ^ 31 ≤ b1 by omega), if_pos hs2] at h
    omega
  · rw [if_pos hs1, if_neg (show ¬ 2 ^ 31 ≤ b2 by omega)] at h
    omega
  · rw [if_pos hs1, if_pos hs2] at h
    omega

/-- C9: for every finite float32 distance pattern and id in [0, 2^31-1],
DecodeHeapItem inverts EncodeHeapItem exactly, and unsigned comparison of
two encoded keys orders them by the IEEE-754 total order of the distances
with the id as the tiebreaker within equal distance patterns. -/
theorem C9_encode_decode_order (d1 d2 : ℕ) (id1 id2 : ℤ)
    (hd1 : d1 < 2 ^ 32) (hd2 : d2 < 2 ^ 32)
    (hf1 : f32finite d1) (hf2 : f32finite d2)
    (hid1l : 0 ≤ id1) (hid1r : id1 ≤ 2 ^ 31 - 1)
    (hid2l : 0 ≤ id2) (hid2r : id2 ≤ 2 ^ 31 - 1) :
    ∃ e1 e2, EncodeHeapItem d1 id1 = .ok e1 ∧ EncodeHeapItem d2 id2 = .ok e2 ∧
      DecodeHeapItem e1 = (d1, id1.toNat) ∧
      (e1 < e2 ↔ (f32TotalLT d1 d2 ∨ (d1 = d2 ∧ id1 < id2))) := by
  refine ⟨flipEnc d1 * 2 ^ 32 + id1.toNat, flipEnc d2 * 2 ^ 32 + id2.toNat,
    ?_, ?_, ?_, ?_⟩
  · unfold EncodeHeapItem
    rw [if_neg (show ¬ id1 < 0 by omega), if_neg (show ¬ (2 ^ 31 - 1 : ℤ) < id1 by omega)]
  · unfold EncodeHeapItem
    rw [if_neg (show ¬ id2 < 0 by omega), if_neg (show ¬ (2 ^ 31 - 1 : ℤ) < id2 by omega)]
  · unfold DecodeHeapItem flipEnc
    have hidn : id1.toNat < 2 ^ 32 := by omega
    rcases lt_or_le d1 (2 ^ 31) with hs | hs
    · rw [if_neg (show ¬ 2 ^ 31 ≤ d1 by omega)]
      have hdiv : ((d1 + 2 ^ 31) * 2 ^ 32 + id1.toNat) / 2 ^ 32 % 2 ^ 32 = d1 + 2 ^ 31 := by
        omega
      rw [hdiv, if_neg (show ¬ d1 + 2 ^ 31 < 2 ^ 31 by omega)]
      simp only [Prod.mk.injEq]
      constructor
      · omega
      · omega
    · rw [if_pos hs]
      have hdiv : ((2 ^ 32 - 1 - d1) * 2 ^ 32 + id1.toNat) / 2 ^ 32 % 2 ^ 32 =
          2 ^ 32 - 1 - d1 := by
        omega
      rw [hdiv, if_pos (show 2 ^ 32 - 1 - d1 < 2 ^ 31 by omega)]
      simp only [Prod.mk.injEq]
      constructor
      · omega
      · omega
  · have hkey := flipEnc_lt_iff hd1 hd2
    have hinj := @flipEnc_inj d1 d2 hd1 hd2
    have hinj2 : d1 = d2 → flipEnc d1 = flipEnc d2 := fun h => by rw [h]
    constructor
    · intro hlt
      rcases lt_trichotomy (flipEnc d1) (flipEnc d2) with hf | hf | hf
      · exact Or.inl (hkey.1 hf)
      · refine Or.inr ⟨hinj hf, ?_⟩
        omega
      · exfalso
        omega
    · rintro (hto | ⟨heq, hid⟩)
      · have hf := hkey.2 hto
        omega
      · have hf := hinj2 heq
        omega

/-- Witness for C9 at the subnormal patterns 1 and 2 with ids 5 and 3. -/
theorem C9_encode_decode_order_witness :
    (1 : ℕ) < 2 ^ 32 ∧ (2 : ℕ) < 2 ^ 32 ∧ f32finite 1 ∧ f32finite 2 ∧
    (0 : ℤ) ≤ 5 ∧ (5 : ℤ) ≤ 2 ^ 31 - 1 ∧ (0 : ℤ) ≤ 3 ∧ (3 : ℤ) ≤ 2 ^ 31 - 1 ∧
    ∃ e1 e2, EncodeHeapItem 1 5 = .ok e1 ∧ EncodeHeapItem 2 3 = .ok e2 ∧
      DecodeHeapItem e1 = (1, (5 : ℤ).toNat) ∧
      (e1 < e2 ↔ (f32TotalLT 1 2 ∨ ((1 : ℕ) = 2 ∧ (5 : ℤ) < 3))) :=
  ⟨by norm_num, by norm_num, by decide, by decide, by norm_num, by norm_num,
    by norm_num, by norm_num,
    C9_encode_decode_order 1 2 5 3 (by norm_num) (by norm_num) (by decide)
      (by decide) (by norm_num) (by norm_num) (by norm_num) (by norm_num)⟩

/-!
Random level draw (src/hnsw/hnsw.go lines 142-154).  The Go code computes
`level := int(-math.Log(randValue) * h.mL)` and caps it at MaxLevel, with
mL = 1/ln(M) set by NewHNSW (hnsw.go line 100).  The float64 computation is
modelled over the reals, which forces these definitions to be
noncomputable; the Go conversion int(x) truncates toward zero.
-/

/-- Go conversion float64 -> int: truncation toward zero. -/
noncomputable def goTrunc (x : ℝ) : ℤ :=
  if 0 ≤ x then ⌊x⌋ else -⌊-x⌋

/-- RandomLevel (hnsw.go lines 142-154): level = int(-ln(randValue) * mL),
capped at MaxLevel. -/
noncomputable def RandomLevel (mL : ℝ) (MaxLevel : ℤ) (randValue : ℝ) : ℤ :=
  if goTrunc (-Real.log randValue * mL) > MaxLevel then MaxLevel
  else goTrunc (-Real.log randValue * mL)

/-- C8: for u in (0,1] and M > 1, RandomLevel with mL = 1/ln(M) returns
min(floor(-ln(u) * mL), MaxLevel), and in particular is at most MaxLevel,
so every inserted node level is capped. -/
theorem C8_random_level (u M : ℝ) (maxLevel : ℤ)
    (hu0 : 0 < u) (hu1 : u ≤ 1) (hM : 1 < M) :
    RandomLevel (1 / Real.log M) maxLevel u =
      min ⌊-Real.log u * (1 / Real.log M)⌋ maxLevel ∧
    RandomLevel (1 / Real.log M) maxLevel u ≤ maxLevel := by
  have hlogu : Real.log u ≤ 0 := Real.log_nonpos hu0.le hu1
  have hlogM : 0 < Real.log M := Real.log_pos hM
  have hx : 0 ≤ -Real.log u * (1 / Real.log M) := by
    apply mul_nonneg (by linarith)
    positivity
  have htr : goTrunc (-Real.log u * (1 / Real.log M)) =
      ⌊-Real.log u * (1 / Real.log M)⌋ := by
    unfold goTrunc
    rw [if_pos hx]
  constructor
  · unfold RandomLevel
    rw [htr]
    rcases le_or_lt ⌊-Real.log u * (1 / Real.log M)⌋ maxLevel with hle | hgt
    · rw [if_neg (by omega), min_eq_left hle]
    · rw [if_pos hgt, min_eq_right hgt.le]
  · unfold RandomLevel
    rw [htr]
    rcases le_or_lt ⌊-Real.log u * (1 / Real.log M)⌋ maxLevel with hle | hgt
    · rw [if_neg (by omega)]
      exact hle
    · rw [if_pos hgt]

/-- Witness for C8 at u = 1, M = 16, MaxLevel = 16. -/
theorem C8_random_level_witness :
    (0 : ℝ) < 1 ∧ (1 : ℝ) ≤ 1 ∧ (1 : ℝ) < 16 ∧
    RandomLevel (1 / Real.log 16) 16 1 =
      min ⌊-Real.log 1 * (1 / Real.log 16)⌋ 16 ∧
    RandomLevel (1 / Real.log 16) 16 1 ≤ 16 :=
  ⟨by norm_num, le_refl 1, by norm_num,
    (C8_random_level 1 16 16 (by norm_num) (le_refl 1) (by norm_num)).1,
    (C8_random_level 1 16 16 (by norm_num) (le_refl 1) (by norm_num)).2⟩

/-!
Node store and graph operations.

The node record is structs/node.go (id-based neighbor lists); the search
routines are src/unnamed/part_002 (searchLayer lines 35-122,
greedySearchLayer lines 127-154, KNN_Search lines 171-213); insertion is
src/unnamed/part_005 (Insert lines 24-102, updateBidirectionalConnections
lines 112-182).  part_005 holds nodes by pointer; under the dense-id
discipline (caller id = slot index) a *structs.Node is interchangeable
with its slot index, which is how this model represents it.  A node's
ID, Vector and Level are never mutated after creation, so carrying a Node
value where Go carries a pointer is observationally equal except for the
Neighbors field, which this model always re-reads from the store exactly
where the Go code does.
-/

/-- structs.Node (structs/node.go lines 5-18). -/
structure Node where
  ID : ℕ
  Vector : List ℚ
  Level : ℕ
  Neighbors : List (List ℕ)
deriving DecidableEq, Repr

instance : Inhabited Node := ⟨⟨0, [], 0, []⟩⟩

/-- NewNode (structs/node.go lines 29-48): empty neighbor lists for levels
0..level (capacities are not modelled).  The vector is stored as passed,
not copied. -/
def NewNode (id : ℕ) (vector : List ℚ) (level : ℕ) : Node :=
  { ID := id, Vector := vector, Level := level,
    Neighbors := List.replicate (level + 1) [] }

/-- The HNSW index (src/hnsw/hnsw.go lines 15-54) restricted to the fields
the embedded operations use.  EntryPoint is a Go *Node modelled as the
node's slot index; none is nil.  RandFunc, mL, MaxLevel and the pools do
not affect the graph operations modelled here (RandomLevel is modelled
separately) and are omitted. -/
structure HNSW where
  Nodes : List Node
  Mmax : ℕ
  Mmax0 : ℕ
  EfConstruction : ℕ
  DistanceFunc : List ℚ → List ℚ → ℚ
  EntryPoint : Option ℕ

/-- Modelled from the spec: the visited set of section 4.4 with the
epoch-stamp interface used by searchLayer (part_002 lines 40, 56 and 90);
the markVisited method itself is not among the given sources.  It reports
whether the id was already visited in this search and marks it visited. -/
def markVisited (visited : Finset ℕ) (id : ℕ) : Bool × Finset ℕ :=
  (id ∈ visited, insert id visited)

/-- All node ids that can ever enter the visited set of one search over a
fixed store: the store slots and every id stored in a neighbor list.
Used as the termination measure universe. -/
def allIds (nds : List Node) : Finset ℕ :=
  (List.range nds.length).toFinset ∪
    (nds.flatMap (fun n => n.Neighbors.flatten)).toFinset

/-- The inner neighbor loop of searchLayer (part_002 lines 87-110): mark
each unvisited neighbor, compute its distance, and push it on both heaps
when it beats the cached furthest distance or the result heap is not yet
full, trimming the result heap to ef. -/
def scanNeighbors (h : HNSW) (query : List ℚ) (ef : ℕ) (furthestDist : ℚ) :
    List ℕ → Finset ℕ → MinHeap → MaxHeap →
    Except GoPanic (Finset ℕ × MinHeap × MaxHeap)
  | [], visited, c, w => .ok (visited, c, w)
  | nid :: rest, visited, c, w =>
    match markVisited visited nid with
    | (true, _) => scanNeighbors h query ef furthestDist rest visited c w
    | (false, visited2) =>
      match h.Nodes[nid]? with
      | none => .error .indexOutOfRange
      | some nb =>
        if h.DistanceFunc query nb.Vector < furthestDist ∨ w.Len < ef then
          if ef < (w.Push ⟨h.DistanceFunc query nb.Vector, nid⟩).Len then
            scanNeighbors h query ef furthestDist rest visited2
              (c.Push ⟨h.DistanceFunc query nb.Vector, nid⟩)
              (((w.Push ⟨h.DistanceFunc query nb.Vector, nid⟩).Pop).2)
          else
            scanNeighbors h query ef furthestDist rest visited2
              (c.Push ⟨h.DistanceFunc query nb.Vector, nid⟩)
              (w.Push ⟨h.DistanceFunc query nb.Vector, nid⟩)
        else scanNeighbors h query ef furthestDist rest visited2 c w

/-- Extraction of the result heap in ascending distance order (part_002
lines 113-121): pop everything, filling the result array back to front. -/
def extractAsc (w : MaxHeap) : List ℕ :=
  ((popListBy maxKey w.nodes).reverse).map NodeHeap.Id

theorem minHeap_pop_some_len {c : MinHeap} {x : NodeHeap} {c2 : MinHeap}
    (h : c.Pop = (some x, c2)) : c2.Len + 1 = c.Len := by
  cases hn : c.nodes with
  | nil =>
    rw [MinHeap.Pop, hn, popBy_nil] at h
    exact absurd (congrArg Prod.fst h).symm (by simp)
  | cons a rest =>
    have hn2 : c2.nodes = (c.Pop).2.nodes := (congrArg (fun p => p.2.nodes) h).symm
    rw [MinHeap.Len, MinHeap.Len, hn2]
    show (popBy minKey c.nodes).2.length + 1 = c.nodes.length
    rw [hn, popBy_snd_length]
    rfl

theorem mem_allIds_of_neighbor {nds : List Node} {n : Node} {idx : ℕ}
    (hn : nds[idx]? = some n) {level : ℕ} {id : ℕ}
    (hid : id ∈ n.Neighbors.getD level []) : id ∈ allIds nds := by
  have hidx : idx < nds.length := by
    by_contra hc
    rw [List.getElem?_eq_none (by omega)] at hn
    cases hn
  have hval : nds[idx] = n := by
    rw [List.getElem?_eq_getElem hidx] at hn
    cases hn
    rfl
  have hmem : n ∈ nds := hval ▸ List.getElem_mem hidx
  rcases lt_or_le level n.Neighbors.length with hl | hl
  · have hlist : n.Neighbors.getD level [] ∈ n.Neighbors := by
      rw [List.getD_eq_getElem _ _ hl]
      exact List.getElem_mem hl
    refine Finset.mem_union_right _ ?_
    rw [List.mem_toFinset, List.mem_flatMap]
    exact ⟨n, hmem, List.mem_flatten.2 ⟨_, hlist, hid⟩⟩
  · rw [List.getD_eq_default _ _ hl] at hid
    exact absurd hid (List.not_mem_nil id)

theorem scanNeighbors_measure (h : HNSW) (query : List ℚ) (ef : ℕ)
    (furthestDist : ℚ) (U : Finset ℕ) :
    ∀ (lst : List ℕ) (visited : Finset ℕ) (c : MinHeap) (w : MaxHeap)
      (v2 : Finset ℕ) (c2 : MinHeap) (w2 : MaxHeap),
    (∀ id ∈ lst, id ∈ U) →
    scanNeighbors h query ef furthestDist lst visited c w = .ok (v2, c2, w2) →
    c2.Len + 2 * (U \ v2).card ≤ c.Len + 2 * (U \ visited).card := by
  intro lst
  induction lst with
  | nil =>
    intro visited c w v2 c2 w2 _ hscan
    rw [scanNeighbors] at hscan
    simp only [Except.ok.injEq, Prod.mk.injEq] at hscan
    obtain ⟨rfl, rfl, rfl⟩ := hscan
    exact le_refl _
  | cons nid rest ih =>
    intro visited c w v2 c2 w2 hsub hscan
    rw [scanNeighbors] at hscan
    by_cases hv : nid ∈ visited
    · simp only [markVisited, hv, decide_True] at hscan
      exact ih visited c w v2 c2 w2 (fun i hi => hsub i (List.mem_cons_of_mem _ hi)) hscan
    · simp only [markVisited, hv, decide_False] at hscan
      have hcard : (U \ insert nid visited).card + 1 = (U \ visited).card := by
        have hins : U \ insert nid visited = (U \ visited).erase nid :=
          Finset.sdiff_insert U visited nid
        have hmem : nid ∈ U \ visited :=
          Finset.mem_sdiff.2 ⟨hsub nid (List.mem_cons_self nid rest), hv⟩
        rw [hins, Finset.card_erase_of_mem hmem]
        have := Finset.card_pos.2 ⟨nid, hmem⟩
        omega
      cases hnode : h.Nodes[nid]? with
      | none =>
        simp only [hnode] at hscan
        cases hscan
      | some nb =>
        simp only [hnode] at hscan
        have hrest : ∀ i ∈ rest, i ∈ U := fun i hi => hsub i (List.mem_cons_of_mem _ hi)
        by_cases hcond : h.DistanceFunc query nb.Vector < furthestDist ∨ w.Len < ef
        · rw [if_pos hcond] at hscan
          by_cases hfull :
              ef < (w.Push ⟨h.DistanceFunc query nb.Vector, nid⟩).Len
          · rw [if_pos hfull] at hscan
            have hrec := ih _ _ _ _ _ _ hrest hscan
            have hpl : (c.Push ⟨h.DistanceFunc query nb.Vector, nid⟩).Len = c.Len + 1 :=
              pushBy_length minKey c.nodes _
            omega
          · rw [if_neg hfull] at hscan
            have hrec := ih _ _ _ _ _ _ hrest hscan
            have hpl : (c.Push ⟨h.DistanceFunc query nb.Vector, nid⟩).Len = c.Len + 1 :=
              pushBy_length minKey c.nodes _
            omega
        · rw [if_neg hcond] at hscan
          have hrec := ih _ _ _ _ _ _ hrest hscan
          omega

/-- The main loop of searchLayer (part_002 lines 64-111).  furthestDist is
the loop-carried variable of line 59, refreshed from the result heap while
it is non-empty (lines 71-74); the store access h.Nodes[current.Id] of
line 68 happens before the termination test of line 78, exactly as in the
source. -/
def searchLoop (h : HNSW) (query : List ℚ) (ef level : ℕ)
    (visited : Finset ℕ) (c : MinHeap) (w : MaxHeap) (prevFurthest : ℚ) :
    Except GoPanic (List ℕ) :=
  if hC : c.Len = 0 then .ok (extractAsc w)
  else
    match hpop : c.Pop with
    | (none, _) => .error .nilDeref
    | (some current, c1) =>
      match hnode : h.Nodes[current.Id]? with
      | none => .error .indexOutOfRange
      | some currentNode =>
        if (if 0 < w.Len then (w.Peek.getD default).Dist else prevFurthest) <
            current.Dist then
          .ok (extractAsc w)
        else if level ≥ currentNode.Neighbors.length ∨
            (currentNode.Neighbors.getD level []).length = 0 then
          searchLoop h query ef level visited c1 w
            (if 0 < w.Len then (w.Peek.getD default).Dist else prevFurthest)
        else
          match hscan : scanNeighbors h query ef
              (if 0 < w.Len then (w.Peek.getD default).Dist else prevFurthest)
              (currentNode.Neighbors.getD level []) visited c1 w with
          | .error e => .error e
          | .ok (v2, c2, w2) =>
            searchLoop h query ef level v2 c2 w2
              (if 0 < w.Len then (w.Peek.getD default).Dist else prevFurthest)
termination_by c.Len + 2 * (allIds h.Nodes \ visited).card
decreasing_by
  · have hlen := minHeap_pop_some_len hpop
    omega
  · have hlen := minHeap_pop_some_len hpop
    have hsub : ∀ id ∈ currentNode.Neighbors.getD level [], id ∈ allIds h.Nodes :=
      fun id hid => mem_allIds_of_neighbor hnode hid
    have hms := scanNeighbors_measure h query ef _ (allIds h.Nodes) _ _ _ _ _ _ _
      hsub hscan
    omega

/-- searchLayer (part_002 lines 35-122): beam search at one layer.  The
visit stamp is bumped and the entry point pushed on both heaps and marked
visited (lines 40-56); then the main loop runs. -/
def searchLayer (h : HNSW) (query : List ℚ) (entry : Node) (ef level : ℕ) :
    Except GoPanic (List ℕ) :=
  searchLoop h query ef level (markVisited ∅ entry.ID).2
    (NewMinHeap.Push ⟨h.DistanceFunc query entry.Vector, entry.ID⟩)
    (NewMaxHeap.Push ⟨h.DistanceFunc query entry.Vector, entry.ID⟩) 0

/-- Count of store slots strictly closer to the query than the bound;
the termination measure of the greedy walk. -/
def greedyMeasure (h : HNSW) (query : List ℚ) (best : ℚ) : ℕ :=
  ((Finset.range h.Nodes.length).filter
    (fun i => h.DistanceFunc query ((h.Nodes.getD i default).Vector) < best)).card

/-- The neighbor scan of one greedy step (part_002 lines 136-145): walk
the neighbor ids in order, dereference each (h.Nodes[neighborID], an
unguarded store access), and stop at the first strict improvement. -/
def findImprove (h : HNSW) (query : List ℚ) (best : ℚ) :
    List ℕ → Except GoPanic (Option (ℕ × Node × ℚ))
  | [] => .ok none
  | nid :: rest =>
    match h.Nodes[nid]? with
    | none => .error .indexOutOfRange
    | some nb =>
      if h.DistanceFunc query nb.Vector < best then
        .ok (some (nid, nb, h.DistanceFunc query nb.Vector))
      else findImprove h query best rest

theorem findImprove_spec (h : HNSW) (query : List ℚ) (best : ℚ) :
    ∀ (lst : List ℕ) (nid : ℕ) (nb : Node) (dist : ℚ),
    findImprove h query best lst = .ok (some (nid, nb, dist)) →
    nid < h.Nodes.length ∧ h.Nodes.getD nid default = nb ∧
      dist = h.DistanceFunc query nb.Vector ∧ dist < best := by
  intro lst
  induction lst with
  | nil =>
    intro nid nb dist hf
    rw [findImprove] at hf
    cases hf
  | cons x rest ih =>
    intro nid nb dist hf
    rw [findImprove] at hf
    cases hnode : h.Nodes[x]? with
    | none =>
      simp only [hnode] at hf
      cases hf
    | some nx =>
      simp only [hnode] at hf
      by_cases hlt : h.DistanceFunc query nx.Vector < best
      · rw [if_pos hlt] at hf
        simp only [Except.ok.injEq, Option.some.injEq, Prod.mk.injEq] at hf
        obtain ⟨rfl, rfl, rfl⟩ := hf
        have hxlen : x < h.Nodes.length := by
          by_contra hc
          rw [List.getElem?_eq_none (by omega)] at hnode
          cases hnode
        refine ⟨hxlen, ?_, rfl, hlt⟩
        rw [List.getD_eq_getElem _ _ hxlen]
        rw [List.getElem?_eq_getElem hxlen] at hnode
        cases hnode
        rfl
      · rw [if_neg hlt] at hf
        exact ih nid nb dist hf

/-- One greedy walk (the body of greedySearchLayer, part_002 lines
128-153): take the first improving neighbor and repeat until none
improves; bestDist always equals the distance of the current node. -/
def greedyLoop (h : HNSW) (query : List ℚ) (level : ℕ) (cur : Node) (best : ℚ) :
    Except GoPanic Node :=
  match hfi : findImprove h query best
      (if level < cur.Neighbors.length then cur.Neighbors.getD level [] else []) with
  | .error e => .error e
  | .ok none => .ok cur
  | .ok (some (nid, nb, dist)) => greedyLoop h query level nb dist
termination_by greedyMeasure h query best
decreasing_by
  have hspec := findImprove_spec h query best _ _ _ _ hfi
  obtain ⟨hlen, hnode, hdist, hlt⟩ := hspec
  unfold greedyMeasure
  apply Finset.card_lt_card
  constructor
  · intro i hi
    rw [Finset.mem_filter] at hi ⊢
    exact ⟨hi.1, lt_trans hi.2 (hdist ▸ hlt)⟩
  · intro hcon
    have hmem : nid ∈ (Finset.range h.Nodes.length).filter
        (fun i => h.DistanceFunc query ((h.Nodes.getD i default).Vector) < best) := by
      rw [Finset.mem_filter, Finset.mem_range]
      exact ⟨hlen, by rw [hnode, ← hdist]; exact hlt⟩
    have hnotmem : nid ∉ (Finset.range h.Nodes.length).filter
        (fun i => h.DistanceFunc query ((h.Nodes.getD i default).Vector) < dist) := by
      rw [Finset.mem_filter]
      rintro ⟨-, hcon2⟩
      rw [hnode, ← hdist] at hcon2
      exact lt_irrefl _ hcon2
    exact hnotmem (hcon hmem)

/-- greedySearchLayer (part_002 lines 127-154). -/
def greedySearchLayer (h : HNSW) (query : List ℚ) (entry : Node) (level : ℕ) :
    Except GoPanic Node :=
  greedyLoop h query level entry (h.DistanceFunc query entry.Vector)

/-- The upper-layer descent of KNN_Search (part_002 lines 193-203), from
the entry level down to layer 1.  The source's nil-check break is dead
(greedySearchLayer always returns a node) and has no model counterpart. -/
def greedyDescent (h : HNSW) (query : List ℚ) : ℕ → Node → Except GoPanic Node
  | 0, entry => .ok entry
  | lc + 1, entry =>
    match greedySearchLayer h query entry (lc + 1) with
    | .error e => .error e
    | .ok newEntry => greedyDescent h query lc newEntry

/-- A Go slice expression l[:k], where l was built by make with capacity
exactly its length: panics when k exceeds the length. -/
def goSliceTake (l : List ℕ) (k : ℕ) : Except GoPanic (List ℕ) :=
  if k ≤ l.length then .ok (l.take k) else .error .sliceBounds

/-- KNN_Search (part_002 lines 171-213): raise ef to K, return empty on
the empty index, greedy-descend from the entry level to layer 1, beam
search at layer 0, and return candidates[:K]. -/
def KNN_Search (h : HNSW) (query : List ℚ) (K ef : ℕ) :
    Except GoPanic (List ℕ) :=
  match h.EntryPoint with
  | none => .ok []
  | some epId =>
    match h.Nodes[epId]? with
    | none => .error .nilDeref
    | some entry =>
      match greedyDescent h query entry.Level entry with
      | .error e => .error e
      | .ok entry2 =>
        match searchLayer h query entry2 (if ef < K then K else ef) 0 with
        | .error e => .error e
        | .ok candidates => goSliceTake candidates K

/-- Overwrite the neighbor list of the node in slot idx at the given
level (a mutation through a Go node pointer; a no-op on an invalid slot,
which cannot arise for a pointer obtained from the store). -/
def setNeighborsAt (nds : List Node) (idx level : ℕ) (lst : List ℕ) : List Node :=
  match nds[idx]? with
  | none => nds
  | some n => nds.set idx { n with Neighbors := n.Neighbors.set level lst }

/-- The distance-push loop of the pruning branch (part_005 lines
158-162): push (d(e, n), n.ID) for every current neighbor n of e. -/
def pushDists (h : HNSW) (e : Node) : List ℕ → MinHeap → Except GoPanic MinHeap
  | [], tmp => .ok tmp
  | n :: rest, tmp =>
    match h.Nodes[n]? with
    | none => .error .nilDeref
    | some nn => pushDists h e rest (tmp.Push ⟨h.DistanceFunc e.Vector nn.Vector, n⟩)

/-- The candidate-pop loop of the pruning branch (part_005 lines 164-170):
pop up to maxConn closest items, resolving each id through h.Nodes[item.Id]
(a real store index).  The heap-drain cleanup of lines 172-176 only
recycles pool objects and has no model counterpart. -/
def popCandidates (h : HNSW) : MinHeap → ℕ → Except GoPanic (List ℕ)
  | _, 0 => .ok []
  | tmp, k + 1 =>
    if tmp.Len = 0 then .ok []
    else
      match tmp.Pop with
      | (none, _) => .error .nilDeref
      | (some item, tmp2) =>
        match h.Nodes[item.Id]? with
        | none => .error .indexOutOfRange
        | some _ =>
          match popCandidates h tmp2 k with
          | .error er => .error er
          | .ok rest => .ok (item.Id :: rest)

/-- The per-neighbor loop of updateBidirectionalConnections (part_005
lines 125-181): skip neighbors without this layer; append q when under the
cap (both capacity branches of lines 131-143 append q); otherwise re-rank
q plus the current neighborhood by distance from e and keep the maxConn
closest (lines 146-180; the final write is in bounds because
maxConn ≤ len(eConn) in this branch). -/
def updateConnLoop (h : HNSW) (qIdx : ℕ) (level maxConn : ℕ) :
    List ℕ → Except GoPanic HNSW
  | [] => .ok h
  | nid :: rest =>
    match h.Nodes[nid]? with
    | none => .error .nilDeref
    | some e =>
      if level ≥ e.Neighbors.length then updateConnLoop h qIdx level maxConn rest
      else if (e.Neighbors.getD level []).length + 1 ≤ maxConn then
        updateConnLoop
          { h with Nodes := setNeighborsAt h.Nodes nid level ((e.Neighbors.getD level []) ++ [qIdx]) }
          qIdx level maxConn rest
      else
        match h.Nodes[qIdx]? with
        | none => .error .nilDeref
        | some q =>
          match pushDists h e (e.Neighbors.getD level [])
              (NewMinHeap.Push ⟨h.DistanceFunc q.Vector e.Vector, qIdx⟩) with
          | .error er => .error er
          | .ok tmp1 =>
            match popCandidates h tmp1 maxConn with
            | .error er => .error er
            | .ok candidates =>
              updateConnLoop
                { h with Nodes := setNeighborsAt h.Nodes nid level candidates }
                qIdx level maxConn rest

/-- updateBidirectionalConnections (part_005 lines 112-182): write the
selected neighbors as q's list at this level (lines 114-115), then run the
per-neighbor back-linking loop. -/
def updateBidirectionalConnections (h : HNSW) (qIdx : ℕ) (neighbors : List ℕ)
    (level maxConn : ℕ) : Except GoPanic HNSW :=
  updateConnLoop { h with Nodes := setNeighborsAt h.Nodes qIdx level neighbors }
    qIdx level maxConn neighbors

/-- The entry-point update at the end of each connect layer (part_005
lines 90-94): ep = h.Nodes[nearestNeighbors[0].ID] when the layer search
returned anything. -/
def epUpdate (h : HNSW) (nn : List ℕ) (ep : Node) : Except GoPanic Node :=
  match nn with
  | [] => .ok ep
  | itemID :: _ =>
    match h.Nodes[itemID]? with
    | none => .error .indexOutOfRange
    | some node => .ok node

/-- Phase 1 of Insert (part_005 lines 55-64): greedy descent from the top
layer L down to level+1. -/
def greedyPhase1 (h : HNSW) (vector : List ℚ) (level : ℕ) :
    ℕ → Node → Except GoPanic Node
  | 0, ep => .ok ep
  | lc + 1, ep =>
    if lc + 1 ≤ level then .ok ep
    else
      match greedySearchLayer h vector ep (lc + 1) with
      | .error e => .error e
      | .ok newEp => greedyPhase1 h vector level lc newEp

/-- Phase 2 of Insert (part_005 lines 66-95): for lc from min(L, level)
down to 0, beam-search the layer, truncate to the cap, back-link, and move
the entry point to the closest result. -/
def insertLayers (h : HNSW) (vector : List ℚ) (qIdx : ℕ) :
    ℕ → Node → Except GoPanic HNSW
  | lc, ep =>
    match searchLayer h vector ep h.EfConstruction lc with
    | .error e => .error e
    | .ok nearestNeighbors =>
      match updateBidirectionalConnections h qIdx
          (if nearestNeighbors.length ≤ (if lc = 0 then h.Mmax0 else h.Mmax)
            then nearestNeighbors
            else nearestNeighbors.take (if lc = 0 then h.Mmax0 else h.Mmax))
          lc (if lc = 0 then h.Mmax0 else h.Mmax) with
      | .error e => .error e
      | .ok h2 =>
        match epUpdate h2 nearestNeighbors ep with
        | .error e => .error e
        | .ok ep2 =>
          match lc with
          | 0 => .ok h2
          | lc2 + 1 => insertLayers h2 vector qIdx lc2 ep2

/-- Insert (part_005 lines 24-102).  The level draw of line 34 is the
injected random source, passed here as the level argument; C8 verifies the
RandomLevel formula separately.  The empty-vector panic of lines 25-27
happens before any mutation.  The new node is appended at slot
h.Nodes.length (line 50); the entry point moves to it when its level
exceeds the old top level (lines 99-101). -/
def Insert (h : HNSW) (vector : List ℚ) (id : ℕ) (level : ℕ) :
    Except GoPanic HNSW :=
  if vector.length = 0 then .error .emptyVector
  else
    match h.EntryPoint with
    | none =>
      .ok { h with EntryPoint := some h.Nodes.length,
                   Nodes := h.Nodes ++ [NewNode id vector level] }
    | some epId =>
      match h.Nodes[epId]? with
      | none => .error .nilDeref
      | some ep =>
        match greedyPhase1 { h with Nodes := h.Nodes ++ [NewNode id vector level] }
            vector level ep.Level ep with
        | .error e => .error e
        | .ok ep1 =>
          match insertLayers { h with Nodes := h.Nodes ++ [NewNode id vector level] }
              vector h.Nodes.length (min ep.Level level) ep1 with
          | .error e => .error e
          | .ok h2 =>
            if level > ep.Level then .ok { h2 with EntryPoint := some h.Nodes.length }
            else .ok h2

/-- Well-formed graph: every id stored in any neighbor list addresses a
store slot. -/
def WFGraph (nds : List Node) : Prop :=
  ∀ n ∈ nds, ∀ lst ∈ n.Neighbors, ∀ id ∈ lst, id < nds.length

/-- Dense ids: the node in slot i carries ID i (the dense-id discipline of
the spec, which callers of this implementation must follow). -/
def DenseIDs (nds : List Node) : Prop :=
  ∀ i < nds.length, (nds.getD i default).ID = i

instance (nds : List Node) : Decidable (WFGraph nds) := by
  unfold WFGraph
  infer_instance

instance (nds : List Node) : Decidable (DenseIDs nds) := by
  unfold DenseIDs
  infer_instance

/-- Distance from the query to the node stored in a slot. -/
def slotDist (h : HNSW) (query : List ℚ) (i : ℕ) : ℚ :=
  h.DistanceFunc query ((h.Nodes.getD i default).Vector)

/-- Loop invariant of searchLayer relating the visited set and the two
heaps to the store. -/
structure SLInv (h : HNSW) (query : List ℚ) (ef : ℕ)
    (visited : Finset ℕ) (c : MinHeap) (w : MaxHeap) : Prop where
  wheap : IsHeapBy maxKey w.nodes
  wlen_lo : 1 ≤ w.Len
  wlen_hi : w.Len ≤ ef
  wnodup : (w.nodes.map NodeHeap.Id).Nodup
  wvalid : ∀ x ∈ w.nodes, x.Id < h.Nodes.length ∧ x.Dist = slotDist h query x.Id
  wsub : ∀ x ∈ w.nodes, x.Id ∈ visited
  cvalid : ∀ x ∈ c.nodes, x.Id < h.Nodes.length ∧ x.Dist = slotDist h query x.Id

/-- The properties claim C5 asserts of a searchLayer result. -/
def GoodRes (h : HNSW) (query : List ℚ) (ef : ℕ) (res : List ℕ) : Prop :=
  1 ≤ res.length ∧ res.length ≤ ef ∧ res.Nodup ∧
  (∀ id ∈ res, id < h.Nodes.length) ∧
  List.Sorted (fun a b => slotDist h query a ≤ slotDist h query b) res

theorem extractAsc_good (h : HNSW) (query : List ℚ) (ef : ℕ)
    (visited : Finset ℕ) (c : MinHeap) (w : MaxHeap)
    (hinv : SLInv h query ef visited c w) : GoodRes h query ef (extractAsc w) := by
  obtain ⟨wheap, wlo, whi, wnodup, wvalid, _, _⟩ := hinv
  have hperm : (popListBy maxKey w.nodes).Perm w.nodes := popListBy_perm maxKey w.nodes
  have hlen : (extractAsc w).length = w.nodes.length := by
    unfold extractAsc
    rw [List.length_map, List.length_reverse, hperm.length_eq]
  have hmemiff : ∀ id, id ∈ extractAsc w ↔ ∃ x ∈ w.nodes, x.Id = id := by
    intro id
    unfold extractAsc
    rw [List.mem_map]
    constructor
    · rintro ⟨x, hx, rfl⟩
      exact ⟨x, hperm.mem_iff.1 (List.mem_reverse.1 hx), rfl⟩
    · rintro ⟨x, hx, rfl⟩
      exact ⟨x, List.mem_reverse.2 (hperm.mem_iff.2 hx), rfl⟩
  refine ⟨by rw [hlen]; exact wlo, by rw [hlen]; exact whi, ?_, ?_, ?_⟩
  · unfold extractAsc
    have hpnodup : ((popListBy maxKey w.nodes).map NodeHeap.Id).Nodup :=
      (hperm.map NodeHeap.Id).nodup_iff.2 wnodup
    rw [List.map_reverse, List.nodup_reverse]
    exact hpnodup
  · intro id hid
    obtain ⟨x, hx, rfl⟩ := (hmemiff id).1 hid
    exact (wvalid x hx).1
  · -- popping a max-heap yields non-increasing Dist; reversed, ascending
    have hsorted := popListBy_sorted maxKey w.nodes wheap
    have hsorted2 : List.Sorted (fun x y => (maxKey x : ℚᵒᵈ) ≤ maxKey y)
        (popListBy maxKey w.nodes) := hsorted
    have hpw : List.Pairwise (fun x y => y.Dist ≤ x.Dist)
        (popListBy maxKey w.nodes) := by
      refine hsorted2.imp ?_
      intro a b hab
      exact hab
    have hrev : List.Pairwise (fun x y => x.Dist ≤ y.Dist)
        ((popListBy maxKey w.nodes).reverse) := by
      rw [List.pairwise_reverse]
      exact hpw
    have hrevmem : ∀ x ∈ (popListBy maxKey w.nodes).reverse, x ∈ w.nodes := by
      intro x hx
      exact hperm.mem_iff.1 (List.mem_reverse.1 hx)
    have hstrong : List.Pairwise
        (fun x y => slotDist h query x.Id ≤ slotDist h query y.Id)
        ((popListBy maxKey w.nodes).reverse) := by
      refine List.Pairwise.imp_of_mem ?_ hrev
      intro a b ha hb hab
      rw [← (wvalid a (hrevmem a ha)).2, ← (wvalid b (hrevmem b hb)).2]
      exact hab
    unfold extractAsc
    exact List.pairwise_map.2 hstrong

theorem minHeap_push_perm (c : MinHeap) (x : NodeHeap) :
    (c.Push x).nodes.Perm (x :: c.nodes) := pushBy_perm minKey c.nodes x

theorem maxHeap_push_perm (w : MaxHeap) (x : NodeHeap) :
    (w.Push x).nodes.Perm (x :: w.nodes) := pushBy_perm maxKey w.nodes x

theorem maxHeap_pop_subset (w : MaxHeap) :
    ∀ y ∈ ((w.Pop).2).nodes, y ∈ w.nodes := by
  intro y hy
  cases hn : w.nodes with
  | nil =>
    rw [MaxHeap.Pop] at hy
    simp only [hn, popBy_nil] at hy
    cases hy
  | cons a rest =>
    rw [MaxHeap.Pop] at hy
    simp only [hn] at hy
    have hperm := popBy_snd_perm maxKey a rest
    exact List.mem_cons_of_mem a (hperm.mem_iff.1 hy)

theorem maxHeap_pop_nodup (w : MaxHeap)
    (hn : (w.nodes.map NodeHeap.Id).Nodup) :
    ((((w.Pop).2).nodes).map NodeHeap.Id).Nodup := by
  cases hw : w.nodes with
  | nil =>
    rw [MaxHeap.Pop]
    simp [hw, popBy_nil]
  | cons a rest =>
    rw [MaxHeap.Pop]
    simp only [hw]
    have hperm := (popBy_snd_perm maxKey a rest).map NodeHeap.Id
    refine hperm.nodup_iff.2 ?_
    rw [hw] at hn
    exact (List.nodup_cons.1 hn).2

theorem maxHeap_push_pop_len (w : MaxHeap) (x : NodeHeap) :
    (((w.Push x).Pop).2).Len = w.Len := by
  have hplen : (w.Push x).nodes.length = w.nodes.length + 1 := pushBy_length maxKey w.nodes x
  cases hp : (w.Push x).nodes with
  | nil => rw [hp] at hplen; cases hplen
  | cons a rest =>
    rw [MaxHeap.Pop]
    show (popBy maxKey (w.Push x).nodes).2.length = w.nodes.length
    rw [hp, popBy_snd_length]
    rw [hp] at hplen
    simpa using hplen

theorem slinv_mono (h : HNSW) (query : List ℚ) (ef : ℕ)
    {visited v2 : Finset ℕ} {c : MinHeap} {w : MaxHeap}
    (hinv : SLInv h query ef visited c w) (hsub : visited ⊆ v2) :
    SLInv h query ef v2 c w :=
  { hinv with wsub := fun x hx => hsub (hinv.wsub x hx) }

theorem slinv_step (h : HNSW) (query : List ℚ) (ef : ℕ) (hef : 1 ≤ ef)
    (visited : Finset ℕ) (c : MinHeap) (w : MaxHeap)
    (hinv : SLInv h query ef visited c w) (nid : ℕ)
    (hnid : nid < h.Nodes.length) (hv : nid ∉ visited) :
    SLInv h query ef (insert nid visited)
      (c.Push ⟨slotDist h query nid, nid⟩)
      (if ef < (w.Push ⟨slotDist h query nid, nid⟩).Len
        then ((w.Push ⟨slotDist h query nid, nid⟩).Pop).2
        else w.Push ⟨slotDist h query nid, nid⟩) := by
  obtain ⟨wheap, wlo, whi, wnodup, wvalid, wsub, cvalid⟩ := hinv
  have hpushheap : IsHeapBy maxKey (w.Push ⟨slotDist h query nid, nid⟩).nodes :=
    pushBy_isHeap maxKey w.nodes _ wheap
  have hpushlen : (w.Push ⟨slotDist h query nid, nid⟩).Len = w.Len + 1 :=
    pushBy_length maxKey w.nodes _
  have hpushperm := maxHeap_push_perm w ⟨slotDist h query nid, nid⟩
  have hnidfresh : nid ∉ w.nodes.map NodeHeap.Id := by
    intro hc
    obtain ⟨y, hy, hyid⟩ := List.mem_map.1 hc
    exact hv (hyid ▸ wsub y hy)
  have hpushnodup : ((w.Push ⟨slotDist h query nid, nid⟩).nodes.map NodeHeap.Id).Nodup := by
    refine (hpushperm.map NodeHeap.Id).nodup_iff.2 ?_
    exact List.nodup_cons.2 ⟨hnidfresh, wnodup⟩
  have hpushvalid : ∀ y ∈ (w.Push ⟨slotDist h query nid, nid⟩).nodes,
      y.Id < h.Nodes.length ∧ y.Dist = slotDist h query y.Id := by
    intro y hy
    rcases List.mem_cons.1 (hpushperm.mem_iff.1 hy) with rfl | hy2
    · exact ⟨hnid, rfl⟩
    · exact wvalid y hy2
  have hpushsub : ∀ y ∈ (w.Push ⟨slotDist h query nid, nid⟩).nodes,
      y.Id ∈ insert nid visited := by
    intro y hy
    rcases List.mem_cons.1 (hpushperm.mem_iff.1 hy) with rfl | hy2
    · exact Finset.mem_insert_self _ _
    · exact Finset.mem_insert_of_mem (wsub y hy2)
  have hcperm := minHeap_push_perm c ⟨slotDist h query nid, nid⟩
  have hcvalid : ∀ y ∈ (c.Push ⟨slotDist h query nid, nid⟩).nodes,
      y.Id < h.Nodes.length ∧ y.Dist = slotDist h query y.Id := by
    intro y hy
    rcases List.mem_cons.1 (hcperm.mem_iff.1 hy) with rfl | hy2
    · exact ⟨hnid, rfl⟩
    · exact cvalid y hy2
  split
  · next hfull =>
    refine ⟨popBy_isHeap maxKey _ hpushheap, ?_, ?_, maxHeap_pop_nodup _ hpushnodup,
      fun y hy => hpushvalid y (maxHeap_pop_subset _ y hy),
      fun y hy => hpushsub y (maxHeap_pop_subset _ y hy), hcvalid⟩
    · rw [maxHeap_push_pop_len]
      omega
    · rw [maxHeap_push_pop_len]
      omega
  · next hfull =>
    exact ⟨hpushheap, by omega, by omega, hpushnodup, hpushvalid, hpushsub, hcvalid⟩

theorem scanNeighbors_inv (h : HNSW) (query : List ℚ) (ef : ℕ)
    (fd : ℚ) (hef : 1 ≤ ef) :
    ∀ (lst : List ℕ) (visited : Finset ℕ) (c : MinHeap) (w : MaxHeap),
    (∀ id ∈ lst, id < h.Nodes.length) →
    SLInv h query ef visited c w →
    ∃ v2 c2 w2, scanNeighbors h query ef fd lst visited c w = .ok (v2, c2, w2) ∧
      SLInv h query ef v2 c2 w2 := by
  intro lst
  induction lst with
  | nil =>
    intro visited c w _ hinv
    exact ⟨visited, c, w, by rw [scanNeighbors], hinv⟩
  | cons nid rest ih =>
    intro visited c w hsub hinv
    have hrest : ∀ id ∈ rest, id < h.Nodes.length :=
      fun i hi => hsub i (List.mem_cons_of_mem _ hi)
    by_cases hv : nid ∈ visited
    · obtain ⟨v2, c2, w2, hs, hi2⟩ := ih visited c w hrest hinv
      refine ⟨v2, c2, w2, ?_, hi2⟩
      rw [scanNeighbors]
      simp only [markVisited, hv, decide_True]
      exact hs
    · have hnid : nid < h.Nodes.length := hsub nid (List.mem_cons_self nid rest)
      have hnode : h.Nodes[nid]? = some h.Nodes[nid] := List.getElem?_eq_getElem hnid
      have hnb : h.Nodes.getD nid default = h.Nodes[nid] := List.getD_eq_getElem _ _ hnid
      have hx : (⟨h.DistanceFunc query h.Nodes[nid].Vector, nid⟩ : NodeHeap) =
          ⟨slotDist h query nid, nid⟩ := by
        rw [slotDist, hnb]
      by_cases hcond : h.DistanceFunc query h.Nodes[nid].Vector < fd ∨ w.Len < ef
      · have hstep := slinv_step h query ef hef visited c w hinv nid hnid hv
        by_cases hfull : ef <
            (w.Push ⟨h.DistanceFunc query h.Nodes[nid].Vector, nid⟩).Len
        · rw [if_pos (by rw [hx] at hfull; exact hfull)] at hstep
          obtain ⟨v2, c2, w2, hs, hi2⟩ := ih (insert nid visited) _ _ hrest (by rw [← hx] at hstep; exact hstep)
          refine ⟨v2, c2, w2, ?_, hi2⟩
          rw [scanNeighbors]
          simp only [markVisited, hv, decide_False, hnode]
          rw [if_pos hcond, if_pos hfull]
          exact hs
        · rw [if_neg (by rw [hx] at hfull; exact hfull)] at hstep
          obtain ⟨v2, c2, w2, hs, hi2⟩ := ih (insert nid visited) _ _ hrest (by rw [← hx] at hstep; exact hstep)
          refine ⟨v2, c2, w2, ?_, hi2⟩
          rw [scanNeighbors]
          simp only [markVisited, hv, decide_False, hnode]
          rw [if_pos hcond, if_neg hfull]
          exact hs
      · obtain ⟨v2, c2, w2, hs, hi2⟩ := ih (insert nid visited) c w hrest
          (slinv_mono h query ef hinv (Finset.subset_insert nid visited))
        refine ⟨v2, c2, w2, ?_, hi2⟩
        rw [scanNeighbors]
        simp only [markVisited, hv, decide_False, hnode]
        rw [if_neg hcond]
        exact hs

theorem minHeap_pop_mem {c : MinHeap} {x : NodeHeap} {c1 : MinHeap}
    (h : c.Pop = (some x, c1)) :
    x ∈ c.nodes ∧ ∀ y ∈ c1.nodes, y ∈ c.nodes := by
  cases hn : c.nodes with
  | nil =>
    rw [MinHeap.Pop, hn, popBy_nil] at h
    exact absurd (congrArg Prod.fst h).symm (by simp)
  | cons a rest =>
    have hfst := congrArg Prod.fst h
    rw [MinHeap.Pop] at hfst
    have hax : a = x := by
      have : (popBy minKey c.nodes).1 = some a := by rw [hn]; exact popBy_fst minKey a rest
      rw [this] at hfst
      exact Option.some.inj hfst
    constructor
    · rw [← hax]
      exact List.mem_cons_self a rest
    · intro y hy
      have hsnd : c1.nodes = (popBy minKey c.nodes).2 :=
        (congrArg (fun p => p.2.nodes) h).symm
      rw [hsnd, hn] at hy
      have hperm := popBy_snd_perm minKey a rest
      exact List.mem_cons_of_mem a (hperm.mem_iff.1 hy)

theorem searchLoop_good (h : HNSW) (query : List ℚ) (ef level : ℕ)
    (hef : 1 ≤ ef) (hWF : WFGraph h.Nodes) :
    ∀ (visited : Finset ℕ) (c : MinHeap) (w : MaxHeap) (pf : ℚ),
    SLInv h query ef visited c w →
    ∃ res, searchLoop h query ef level visited c w pf = .ok res ∧
      GoodRes h query ef res := by
  intro visited c w pf hinv
  generalize hm : c.Len + 2 * (allIds h.Nodes \ visited).card = m
  induction m using Nat.strong_induction_on generalizing visited c w pf with
  | _ m ih =>
    rw [searchLoop]
    split
    · exact ⟨extractAsc w, rfl, extractAsc_good h query ef visited c w hinv⟩
    · next hC =>
      split
      · next snd hpop =>
        exfalso
        cases hcn : c.nodes with
        | nil => exact hC (by rw [MinHeap.Len, hcn]; rfl)
        | cons a rest =>
          have hfst : (c.Pop).1 = some a := by
            rw [MinHeap.Pop]
            show (popBy minKey c.nodes).1 = some a
            rw [hcn]
            exact popBy_fst minKey a rest
          rw [hpop] at hfst
          cases hfst
      · next current c1 hpop =>
        have hmem := minHeap_pop_mem hpop
        have hcurvalid := hinv.cvalid current hmem.1
        have hlen1 := minHeap_pop_some_len hpop
        have hinv1 : SLInv h query ef visited c1 w :=
          { hinv with cvalid := fun y hy => hinv.cvalid y (hmem.2 y hy) }
        split
        · next hnode =>
          exfalso
          rw [List.getElem?_eq_getElem hcurvalid.1] at hnode
          cases hnode
        · next currentNode hnode =>
          split
          · next h0 =>
            rw [if_pos h0]
            split
            · exact ⟨extractAsc w, rfl, extractAsc_good h query ef visited c w hinv⟩
            · next hbreak =>
              split
              · next hcont =>
                exact ih (c1.Len + 2 * (allIds h.Nodes \ visited).card)
                  (by omega) visited c1 w _ hinv1 rfl
              · next hcont =>
                have hlevel : level < currentNode.Neighbors.length := by
                  push_neg at hcont
                  omega
                have hnmem : currentNode ∈ h.Nodes := by
                  have hidx : current.Id < h.Nodes.length := hcurvalid.1
                  rw [List.getElem?_eq_getElem hidx] at hnode
                  cases hnode
                  exact List.getElem_mem hidx
                have hsub : ∀ id ∈ currentNode.Neighbors.getD level [],
                    id < h.Nodes.length := by
                  intro id hid
                  refine hWF currentNode hnmem (currentNode.Neighbors.getD level []) ?_ id hid
                  rw [List.getD_eq_getElem _ _ hlevel]
                  exact List.getElem_mem hlevel
                obtain ⟨v2, c2, w2, hs, hinv2⟩ := scanNeighbors_inv h query ef _ hef
                  (currentNode.Neighbors.getD level []) visited c1 w hsub hinv1
                have hmeasure := scanNeighbors_measure h query ef _ (allIds h.Nodes)
                  (currentNode.Neighbors.getD level []) visited c1 w v2 c2 w2
                  (fun id hid => mem_allIds_of_neighbor hnode hid) hs
                split
                · next e hserr =>
                  rw [hs] at hserr
                  cases hserr
                · next v2x c2x w2x hseq =>
                  rw [hs] at hseq
                  simp only [Except.ok.injEq, Prod.mk.injEq] at hseq
                  obtain ⟨rfl, rfl, rfl⟩ := hseq
                  exact ih (c2.Len + 2 * (allIds h.Nodes \ v2).card)
                    (by omega) v2 c2 w2 _ hinv2 rfl
          · next h0 =>
            exact absurd hinv.wlen_lo (by omega)

theorem siftDownBy_nil {α K : Type} [Inhabited α] [LinearOrder K] (key : α → K)
    (i : ℕ) : siftDownBy key ([] : List α) i = [] := by
  rw [siftDownBy]
  simp [smallestIdx, chooseIdx]

theorem pushBy_nil_eq {α K : Type} [Inhabited α] [LinearOrder K] (key : α → K)
    (x : α) : pushBy key [] x = [x] := by
  unfold pushBy
  rw [siftUpBy]
  simp

theorem popBy_singleton {α K : Type} [Inhabited α] [LinearOrder K] (key : α → K)
    (x : α) : popBy key [x] = (some x, []) := by
  unfold popBy
  simp [siftDownBy_nil]

theorem popListBy_singleton {α K : Type} [Inhabited α] [LinearOrder K]
    (key : α → K) (x : α) : popListBy key [x] = [x] := by
  rw [popListBy, popBy_singleton]
  rw [popListBy]

theorem searchLayer_entry_only (h : HNSW) (query : List ℚ) (entry : Node)
    (ef level : ℕ) (hent : entry.ID < h.Nodes.length)
    (hentEq : h.Nodes.getD entry.ID default = entry)
    (hnb : entry.Neighbors.getD level [] = []) :
    searchLayer h query entry ef level = .ok [entry.ID] := by
  have hlookup : h.Nodes[entry.ID]? = some entry := by
    rw [List.getElem?_eq_getElem hent]
    rw [List.getD_eq_getElem _ _ hent] at hentEq
    rw [hentEq]
  have hcn : (NewMinHeap.Push ⟨h.DistanceFunc query entry.Vector, entry.ID⟩).nodes =
      [⟨h.DistanceFunc query entry.Vector, entry.ID⟩] :=
    pushBy_nil_eq minKey _
  have hwn : (NewMaxHeap.Push ⟨h.DistanceFunc query entry.Vector, entry.ID⟩).nodes =
      [⟨h.DistanceFunc query entry.Vector, entry.ID⟩] :=
    pushBy_nil_eq maxKey _
  unfold searchLayer
  rw [searchLoop]
  rw [dif_neg (show ¬ (NewMinHeap.Push
      ⟨h.DistanceFunc query entry.Vector, entry.ID⟩).Len = 0 by
    rw [MinHeap.Len, hcn]; simp)]
  have hpop : (NewMinHeap.Push ⟨h.DistanceFunc query entry.Vector, entry.ID⟩).Pop =
      (some ⟨h.DistanceFunc query entry.Vector, entry.ID⟩, ⟨[]⟩) := by
    rw [MinHeap.Pop]
    rw [show (NewMinHeap.Push ⟨h.DistanceFunc query entry.Vector, entry.ID⟩).nodes =
      [⟨h.DistanceFunc query entry.Vector, entry.ID⟩] from hcn]
    rw [popBy_singleton]
  rw [hpop]
  rw [if_pos (show 0 < (NewMaxHeap.Push
      ⟨h.DistanceFunc query entry.Vector, entry.ID⟩).Len by
    rw [MaxHeap.Len, hwn]; simp)]
  have hpeek : (NewMaxHeap.Push ⟨h.DistanceFunc query entry.Vector, entry.ID⟩).Peek =
      some ⟨h.DistanceFunc query entry.Vector, entry.ID⟩ := by
    rw [MaxHeap.Peek, hwn]
    rfl
  rw [hpeek]
  simp only [Option.getD_some]
  split
  · next hnode2 =>
    rw [hlookup] at hnode2
    cases hnode2
  · next currentNode hnode2 =>
    rw [hlookup] at hnode2
    cases hnode2
    rw [if_neg (lt_irrefl (h.DistanceFunc query entry.Vector))]
    rw [if_pos (Or.inr (by rw [hnb]; rfl))]
    rw [searchLoop]
    rw [dif_pos (show (⟨[]⟩ : MinHeap).Len = 0 from rfl)]
    unfold extractAsc
    rw [hwn, popListBy_singleton]
    rfl

theorem searchLayer_ok (h : HNSW) (query : List ℚ) (entry : Node)
    (ef level : ℕ) (hef : 1 ≤ ef) (hWF : WFGraph h.Nodes)
    (hent : entry.ID < h.Nodes.length)
    (hentEq : h.Nodes.getD entry.ID default = entry) :
    ∃ res, searchLayer h query entry ef level = .ok res ∧
      1 ≤ res.length ∧ res.length ≤ ef ∧ res.Nodup ∧
      (∀ id ∈ res, id < h.Nodes.length) ∧
      List.Sorted (fun a b => slotDist h query a ≤ slotDist h query b) res ∧
      (entry.Neighbors.getD level [] = [] → res = [entry.ID]) := by
  have hcn : (NewMinHeap.Push ⟨h.DistanceFunc query entry.Vector, entry.ID⟩).nodes =
      [⟨h.DistanceFunc query entry.Vector, entry.ID⟩] := pushBy_nil_eq minKey _
  have hwn : (NewMaxHeap.Push ⟨h.DistanceFunc query entry.Vector, entry.ID⟩).nodes =
      [⟨h.DistanceFunc query entry.Vector, entry.ID⟩] := pushBy_nil_eq maxKey _
  have hvis : (markVisited ∅ entry.ID).2 = insert entry.ID ∅ := rfl
  have hinv0 : SLInv h query ef (markVisited ∅ entry.ID).2
      (NewMinHeap.Push ⟨h.DistanceFunc query entry.Vector, entry.ID⟩)
      (NewMaxHeap.Push ⟨h.DistanceFunc query entry.Vector, entry.ID⟩) := by
    refine ⟨?_, ?_, ?_, ?_, ?_, ?_, ?_⟩
    · rw [show (NewMaxHeap.Push ⟨h.DistanceFunc query entry.Vector, entry.ID⟩).nodes =
        [⟨h.DistanceFunc query entry.Vector, entry.ID⟩] from hwn]
      intro j hj0 hjl
      simp at hjl
      omega
    · rw [MaxHeap.Len, hwn]
      simp
    · rw [MaxHeap.Len, hwn]
      simpa using hef
    · rw [hwn]
      simp
    · intro y hy
      rw [hwn] at hy
      rcases List.mem_singleton.1 hy with rfl
      refine ⟨hent, ?_⟩
      rw [slotDist, hentEq]
    · intro y hy
      rw [hwn] at hy
      rcases List.mem_singleton.1 hy with rfl
      rw [hvis]
      exact Finset.mem_insert_self _ _
    · intro y hy
      rw [hcn] at hy
      rcases List.mem_singleton.1 hy with rfl
      refine ⟨hent, ?_⟩
      rw [slotDist, hentEq]
  obtain ⟨res, hres, hgood⟩ := searchLoop_good h query ef level hef hWF
    (markVisited ∅ entry.ID).2 _ _ 0 hinv0
  obtain ⟨hlo, hhi, hnd, hvalid, hsorted⟩ := hgood
  refine ⟨res, hres, hlo, hhi, hnd, hvalid, hsorted, ?_⟩
  intro hnb
  have h2 := searchLayer_entry_only h query entry ef level hent hentEq hnb
  unfold searchLayer at h2
  rw [hres] at h2
  exact Except.ok.inj h2

/-- C5: on a non-empty index with a well-formed neighbor graph, for every
query, entry node, layer, and ef ≥ 1, searchLayer succeeds (it never
signals failure) and returns between 1 and ef distinct in-store node ids
sorted in ascending order of distance to the query; when the entry point
has no neighbors at the layer the result is exactly the entry point. -/
theorem C5_searchLayer_beam (h : HNSW) (query : List ℚ) (entry : Node)
    (ef level : ℕ) (hef : 1 ≤ ef) (hWF : WFGraph h.Nodes)
    (hent : entry.ID < h.Nodes.length)
    (hentEq : h.Nodes.getD entry.ID default = entry) :
    ∃ res, searchLayer h query entry ef level = .ok res ∧
      1 ≤ res.length ∧ res.length ≤ ef ∧ res.Nodup ∧
      (∀ id ∈ res, id < h.Nodes.length) ∧
      List.Sorted (fun a b => slotDist h query a ≤ slotDist h query b) res ∧
      (entry.Neighbors.getD level [] = [] → res = [entry.ID]) :=
  searchLayer_ok h query entry ef level hef hWF hent hentEq

/-- Concrete single-node index for witnesses. -/
def wGraphOne : HNSW :=
  { Nodes := [⟨0, [0], 0, [[]]⟩], Mmax := 2, Mmax0 := 2, EfConstruction := 2,
    DistanceFunc := fun _ _ => 0, EntryPoint := some 0 }

/-- Witness for C5 on a one-node index at ef = 1, layer 0. -/
theorem C5_searchLayer_beam_witness :
    1 ≤ 1 ∧ WFGraph wGraphOne.Nodes ∧
    (⟨0, [0], 0, [[]]⟩ : Node).ID < wGraphOne.Nodes.length ∧
    wGraphOne.Nodes.getD (⟨0, [0], 0, [[]]⟩ : Node).ID default = ⟨0, [0], 0, [[]]⟩ ∧
    ∃ res, searchLayer wGraphOne [0] ⟨0, [0], 0, [[]]⟩ 1 0 = .ok res ∧
      1 ≤ res.length ∧ res.length ≤ 1 ∧ res.Nodup ∧
      (∀ id ∈ res, id < wGraphOne.Nodes.length) ∧
      List.Sorted (fun a b => slotDist wGraphOne [0] a ≤ slotDist wGraphOne [0] b) res ∧
      ((⟨0, [0], 0, [[]]⟩ : Node).Neighbors.getD 0 [] = [] → res = [0]) :=
  ⟨le_refl 1, by decide, by decide, by decide,
    C5_searchLayer_beam wGraphOne [0] ⟨0, [0], 0, [[]]⟩ 1 0 (le_refl 1)
      (by decide) (by decide) (by decide)⟩

theorem findImprove_ok (h : HNSW) (query : List ℚ) (best : ℚ) :
    ∀ (lst : List ℕ), (∀ nid ∈ lst, nid < h.Nodes.length) →
    ∃ r, findImprove h query best lst = .ok r := by
  intro lst
  induction lst with
  | nil =>
    intro _
    exact ⟨none, rfl⟩
  | cons x rest ih =>
    intro hb
    have hx : x < h.Nodes.length := hb x (List.mem_cons_self x rest)
    rw [findImprove]
    simp only [List.getElem?_eq_getElem hx]
    by_cases hlt : h.DistanceFunc query (h.Nodes[x].Vector) < best
    · exact ⟨some (x, h.Nodes[x], h.DistanceFunc query (h.Nodes[x].Vector)), by rw [if_pos hlt]⟩
    · obtain ⟨r, hr⟩ := ih (fun nid hnid => hb nid (List.mem_cons_of_mem x hnid))
      exact ⟨r, by rw [if_neg hlt]; exact hr⟩

theorem findImprove_none (h : HNSW) (query : List ℚ) (best : ℚ) :
    ∀ (lst : List ℕ), findImprove h query best lst = .ok none →
    ∀ nid ∈ lst, ¬ h.DistanceFunc query ((h.Nodes.getD nid default).Vector) < best := by
  intro lst
  induction lst with
  | nil =>
    intro _ nid hnid
    cases hnid
  | cons x rest ih =>
    intro hf nid hnid
    rw [findImprove] at hf
    cases hnode : h.Nodes[x]? with
    | none =>
      rw [hnode] at hf
      cases hf
    | some nx =>
      simp only [hnode] at hf
      by_cases hlt : h.DistanceFunc query nx.Vector < best
      · rw [if_pos hlt] at hf
        cases hf
      · rw [if_neg hlt] at hf
        rcases List.mem_cons.1 hnid with rfl | hmem
        · have hxlen : nid < h.Nodes.length := by
            by_contra hc
            rw [List.getElem?_eq_none (by omega)] at hnode
            cases hnode
          rw [List.getElem?_eq_getElem hxlen] at hnode
          rw [List.getD_eq_getElem _ _ hxlen]
          cases hnode
          exact hlt
        · exact ih hf nid hmem

theorem greedyMeasure_lt (h : HNSW) (query : List ℚ) (best : ℚ) (nid : ℕ) (nb : Node)
    (hlen : nid < h.Nodes.length) (hnode : h.Nodes.getD nid default = nb)
    (hlt : h.DistanceFunc query nb.Vector < best) :
    greedyMeasure h query (h.DistanceFunc query nb.Vector) < greedyMeasure h query best := by
  unfold greedyMeasure
  apply Finset.card_lt_card
  constructor
  · intro i hi
    rw [Finset.mem_filter] at hi ⊢
    exact ⟨hi.1, lt_trans hi.2 hlt⟩
  · intro hcon
    have hmem : nid ∈ (Finset.range h.Nodes.length).filter
        (fun i => h.DistanceFunc query ((h.Nodes.getD i default).Vector) < best) := by
      rw [Finset.mem_filter, Finset.mem_range]
      exact ⟨hlen, by rw [hnode]; exact hlt⟩
    have hnotmem : nid ∉ (Finset.range h.Nodes.length).filter
        (fun i => h.DistanceFunc query ((h.Nodes.getD i default).Vector) <
          h.DistanceFunc query nb.Vector) := by
      rw [Finset.mem_filter]
      rintro ⟨-, hcon2⟩
      rw [hnode] at hcon2
      exact lt_irrefl _ hcon2
    exact hnotmem (hcon hmem)

theorem scanList_bounded (h : HNSW) (hWF : WFGraph h.Nodes) (nb : Node)
    (hin : nb ∈ h.Nodes) (level : ℕ) :
    ∀ nid ∈ (if level < nb.Neighbors.length then nb.Neighbors.getD level [] else []),
      nid < h.Nodes.length := by
  intro nid hnid
  by_cases hl : level < nb.Neighbors.length
  · rw [if_pos hl] at hnid
    rw [List.getD_eq_getElem _ _ hl] at hnid
    exact hWF nb hin _ (List.getElem_mem hl) nid hnid
  · rw [if_neg hl] at hnid
    cases hnid

theorem greedyLoop_spec (h : HNSW) (query : List ℚ) (level : ℕ) (hWF : WFGraph h.Nodes) :
    ∀ (n : ℕ) (best : ℚ) (cur : Node), greedyMeasure h query best ≤ n →
    h.DistanceFunc query cur.Vector = best →
    (∀ nid ∈ (if level < cur.Neighbors.length then cur.Neighbors.getD level [] else []),
      nid < h.Nodes.length) →
    ∃ res, greedyLoop h query level cur best = .ok res ∧
      h.DistanceFunc query res.Vector ≤ best ∧
      ∀ nid ∈ (if level < res.Neighbors.length then res.Neighbors.getD level [] else []),
        ¬ h.DistanceFunc query ((h.Nodes.getD nid default).Vector) <
          h.DistanceFunc query res.Vector := by
  intro n
  induction n with
  | zero =>
    intro best cur hm hcur hb
    obtain ⟨r, hr⟩ := findImprove_ok h query best _ hb
    cases r with
    | none =>
      have hgl : greedyLoop h query level cur best = .ok cur := by
        rw [greedyLoop]
        split
        next e heq => rw [hr] at heq; cases heq
        next heq => rfl
        next nid nb dist heq => rw [hr] at heq; simp at heq
      refine ⟨cur, hgl, le_of_eq hcur, ?_⟩
      intro nid hnid
      rw [hcur]
      exact findImprove_none h query best _ hr nid hnid
    | some r3 =>
      obtain ⟨nid, nb, dist⟩ := r3
      obtain ⟨hlen, hnode, hdist, hlt⟩ := findImprove_spec h query best _ nid nb dist hr
      have := greedyMeasure_lt h query best nid nb hlen hnode (hdist ▸ hlt)
      omega
  | succ n ih =>
    intro best cur hm hcur hb
    obtain ⟨r, hr⟩ := findImprove_ok h query best _ hb
    cases r with
    | none =>
      have hgl : greedyLoop h query level cur best = .ok cur := by
        rw [greedyLoop]
        split
        next e heq => rw [hr] at heq; cases heq
        next heq => rfl
        next nid nb dist heq => rw [hr] at heq; simp at heq
      refine ⟨cur, hgl, le_of_eq hcur, ?_⟩
      intro nid hnid
      rw [hcur]
      exact findImprove_none h query best _ hr nid hnid
    | some r3 =>
      obtain ⟨nid, nb, dist⟩ := r3
      obtain ⟨hlen, hnode, hdist, hlt⟩ := findImprove_spec h query best _ nid nb dist hr
      have hmlt := greedyMeasure_lt h query best nid nb hlen hnode (hdist ▸ hlt)
      rw [← hdist] at hmlt
      have hnbin : nb ∈ h.Nodes := by
        rw [List.getD_eq_getElem _ _ hlen] at hnode
        rw [← hnode]
        exact List.getElem_mem hlen
      obtain ⟨res, hres, hresle, hlocal⟩ := ih dist nb (by omega)
        hdist.symm (scanList_bounded h hWF nb hnbin level)
      have hgl : greedyLoop h query level cur best = greedyLoop h query level nb dist := by
        rw [greedyLoop]
        split
        next e heq => rw [hr] at heq; cases heq
        next heq => rw [hr] at heq; simp at heq
        next nid2 nb2 dist2 heq =>
          rw [hr] at heq
          simp only [Except.ok.injEq, Option.some.injEq, Prod.mk.injEq] at heq
          obtain ⟨rfl, rfl, rfl⟩ := heq
          rfl
      exact ⟨res, by rw [hgl]; exact hres, le_of_lt (lt_of_le_of_lt hresle hlt), hlocal⟩

/-- C6: on a well-formed graph, for every query, layer, and entry node
stored in the graph, the greedy walk greedySearchLayer terminates with a
node (no failure) whose distance to the query is at most the entry
node's, and none of whose neighbors at that layer is strictly closer to
the query. -/
theorem C6_greedy_local_min (h : HNSW) (query : List ℚ) (entry : Node) (level : ℕ)
    (hWF : WFGraph h.Nodes) (hentIn : entry ∈ h.Nodes) :
    ∃ res, greedySearchLayer h query entry level = .ok res ∧
      h.DistanceFunc query res.Vector ≤ h.DistanceFunc query entry.Vector ∧
      ∀ nid ∈ (if level < res.Neighbors.length then res.Neighbors.getD level [] else []),
        ¬ h.DistanceFunc query ((h.Nodes.getD nid default).Vector) <
          h.DistanceFunc query res.Vector := by
  unfold greedySearchLayer
  exact greedyLoop_spec h query level hWF
    (greedyMeasure h query (h.DistanceFunc query entry.Vector))
    (h.DistanceFunc query entry.Vector) entry (le_refl _) rfl
    (scanList_bounded h hWF entry hentIn level)

/-- Witness for C6 on a one-node index at layer 0. -/
theorem C6_greedy_local_min_witness :
    WFGraph wGraphOne.Nodes ∧ (⟨0, [0], 0, [[]]⟩ : Node) ∈ wGraphOne.Nodes ∧
    ∃ res, greedySearchLayer wGraphOne [0] ⟨0, [0], 0, [[]]⟩ 0 = .ok res ∧
      wGraphOne.DistanceFunc [0] res.Vector ≤
        wGraphOne.DistanceFunc [0] (⟨0, [0], 0, [[]]⟩ : Node).Vector ∧
      ∀ nid ∈ (if 0 < res.Neighbors.length then res.Neighbors.getD 0 [] else []),
        ¬ wGraphOne.DistanceFunc [0] ((wGraphOne.Nodes.getD nid default).Vector) <
          wGraphOne.DistanceFunc [0] res.Vector :=
  ⟨by decide, by decide,
    C6_greedy_local_min wGraphOne [0] ⟨0, [0], 0, [[]]⟩ 0 (by decide) (by decide)⟩

theorem getElem?_some_facts {α : Type} [Inhabited α] {l : List α} {i : ℕ} {a : α}
    (h : l[i]? = some a) : i < l.length ∧ l.getD i default = a ∧ a ∈ l := by
  have hi : i < l.length := by
    by_contra hc
    rw [List.getElem?_eq_none (by omega)] at h
    cases h
  rw [List.getElem?_eq_getElem hi] at h
  have ha : l[i] = a := Option.some.inj h
  refine ⟨hi, ?_, ?_⟩
  · rw [List.getD_eq_getElem _ _ hi, ha]
  · rw [← ha]
    exact List.getElem_mem hi

theorem mem_dense {nds : List Node} (hD : DenseIDs nds) {n : Node} (hn : n ∈ nds) :
    n.ID < nds.length ∧ nds.getD n.ID default = n := by
  obtain ⟨i, hi, hget⟩ := List.getElem_of_mem hn
  have hid : n.ID = i := by
    have hd := hD i hi
    rw [List.getD_eq_getElem _ _ hi, hget] at hd
    exact hd
  constructor
  · rw [hid]
    exact hi
  · rw [hid, List.getD_eq_getElem _ _ hi, hget]

/-- The entry-point pointer, when set, addresses a store slot (Go: the
*Node stored in h.EntryPoint points into h.Nodes). -/
def EPValid (h : HNSW) : Prop :=
  h.EntryPoint.getD 0 < h.Nodes.length ∨ h.EntryPoint = none

instance (h : HNSW) : Decidable (EPValid h) := by
  unfold EPValid
  infer_instance

theorem epValid_some {h : HNSW} {epId : ℕ} (hEp : EPValid h)
    (he : h.EntryPoint = some epId) : epId < h.Nodes.length := by
  rcases hEp with h1 | h2
  · rw [he] at h1
    exact h1
  · rw [he] at h2
    cases h2

/-- Level consistency: each node carries one neighbor list per layer
0..Level, as NewNode allocates them (structs/node.go lines 34-46). -/
def LevelLists (nds : List Node) : Prop :=
  ∀ n ∈ nds, n.Neighbors.length = n.Level + 1

instance (nds : List Node) : Decidable (LevelLists nds) := by
  unfold LevelLists
  infer_instance

/-- The bounded fan-out property of claim C2 (spec P3): at most Mmax0 ids
at layer 0 and at most Mmax at any higher layer. -/
def FanOut (mmax0 mmax : ℕ) (nds : List Node) : Prop :=
  ∀ n ∈ nds, ∀ l ≤ n.Level,
    (n.Neighbors.getD l []).length ≤ if l = 0 then mmax0 else mmax

instance (mmax0 mmax : ℕ) (nds : List Node) : Decidable (FanOut mmax0 mmax nds) := by
  unfold FanOut
  infer_instance

theorem setNeighborsAt_length (nds : List Node) (idx level : ℕ) (lst : List ℕ) :
    (setNeighborsAt nds idx level lst).length = nds.length := by
  unfold setNeighborsAt
  cases hnode : nds[idx]? <;> simp [hnode]

theorem mem_setNeighborsAt (nds : List Node) (idx level : ℕ) (lst : List ℕ)
    (m : Node) (hm : m ∈ setNeighborsAt nds idx level lst) :
    m ∈ nds ∨ ∃ n, nds[idx]? = some n ∧
      m = { n with Neighbors := n.Neighbors.set level lst } := by
  unfold setNeighborsAt at hm
  cases hnode : nds[idx]? with
  | none =>
    rw [hnode] at hm
    exact Or.inl hm
  | some n =>
    rw [hnode] at hm
    rcases List.mem_or_eq_of_mem_set hm with h1 | h2
    · exact Or.inl h1
    · exact Or.inr ⟨n, rfl, h2⟩

theorem setNeighborsAt_wf (nds : List Node) (idx level : ℕ) (lst : List ℕ)
    (hWF : WFGraph nds) (hlst : ∀ id ∈ lst, id < nds.length) :
    WFGraph (setNeighborsAt nds idx level lst) := by
  intro m hm l2 hl2 id hid
  rw [setNeighborsAt_length]
  rcases mem_setNeighborsAt _ _ _ _ _ hm with hmem | ⟨n, hn, rfl⟩
  · exact hWF m hmem l2 hl2 id hid
  · have hnin : n ∈ nds := (getElem?_some_facts hn).2.2
    rcases List.mem_or_eq_of_mem_set hl2 with hl2m | rfl
    · exact hWF n hnin l2 hl2m id hid
    · exact hlst id hid

theorem setNeighborsAt_dense (nds : List Node) (idx level : ℕ) (lst : List ℕ)
    (hD : DenseIDs nds) : DenseIDs (setNeighborsAt nds idx level lst) := by
  intro i hi
  rw [setNeighborsAt_length] at hi
  unfold setNeighborsAt
  cases hnode : nds[idx]? with
  | none => exact hD i hi
  | some n =>
    show ((nds.set idx { n with Neighbors := n.Neighbors.set level lst }).getD i
      default).ID = i
    obtain ⟨hidx, hgetd, -⟩ := getElem?_some_facts hnode
    rw [List.getD_eq_getElem _ _ (by rw [List.length_set]; exact hi)]
    rw [List.getElem_set]
    by_cases hii : idx = i
    · rw [if_pos hii]
      show n.ID = i
      have := hD idx hidx
      rw [hgetd] at this
      rw [this]
      exact hii
    · rw [if_neg hii]
      have := hD i hi
      rw [List.getD_eq_getElem _ _ hi] at this
      exact this

theorem setNeighborsAt_levels (nds : List Node) (idx level : ℕ) (lst : List ℕ)
    (hL : LevelLists nds) : LevelLists (setNeighborsAt nds idx level lst) := by
  intro m hm
  rcases mem_setNeighborsAt _ _ _ _ _ hm with hmem | ⟨n, hn, rfl⟩
  · exact hL m hmem
  · show (n.Neighbors.set level lst).length = n.Level + 1
    rw [List.length_set]
    exact hL n (getElem?_some_facts hn).2.2

theorem setNeighborsAt_fanout (mmax0 mmax : ℕ) (nds : List Node)
    (idx level : ℕ) (lst : List ℕ)
    (hF : FanOut mmax0 mmax nds)
    (hlen : lst.length ≤ if level = 0 then mmax0 else mmax) :
    FanOut mmax0 mmax (setNeighborsAt nds idx level lst) := by
  intro m hm l hl
  rcases mem_setNeighborsAt _ _ _ _ _ hm with hmem | ⟨n, hn, rfl⟩
  · exact hF m hmem l hl
  · have hnin : n ∈ nds := (getElem?_some_facts hn).2.2
    show ((n.Neighbors.set level lst).getD l []).length ≤ if l = 0 then mmax0 else mmax
    by_cases hrange : l < n.Neighbors.length
    · rw [List.getD_eq_getElem _ _ (by rw [List.length_set]; exact hrange)]
      rw [List.getElem_set]
      by_cases hll : level = l
      · rw [if_pos hll, ← hll]
        exact hlen
      · rw [if_neg hll]
        have := hF n hnin l hl
        rw [List.getD_eq_getElem _ _ hrange] at this
        exact this
    · rw [List.getD_eq_default _ _ (by rw [List.length_set]; omega)]
      exact Nat.zero_le _

theorem append_wf (nds : List Node) (id : ℕ) (v : List ℚ) (lvl : ℕ)
    (hWF : WFGraph nds) : WFGraph (nds ++ [NewNode id v lvl]) := by
  intro n hn l hl i hi
  rw [List.length_append]
  rcases List.mem_append.1 hn with h1 | h2
  · exact lt_of_lt_of_le (hWF n h1 l hl i hi) (by simp)
  · rcases List.mem_singleton.1 h2 with rfl
    have hl2 : l = [] :=
      List.eq_of_mem_replicate (show l ∈ List.replicate (lvl + 1) ([] : List ℕ) from hl)
    rw [hl2] at hi
    cases hi

theorem append_dense (nds : List Node) (v : List ℚ) (lvl : ℕ)
    (hD : DenseIDs nds) : DenseIDs (nds ++ [NewNode nds.length v lvl]) := by
  intro i hi
  rw [List.length_append, List.length_singleton] at hi
  by_cases hlt : i < nds.length
  · rw [List.getD_eq_getElem _ _ (by rw [List.length_append]; simp; omega)]
    rw [List.getElem_append_left hlt]
    have := hD i hlt
    rw [List.getD_eq_getElem _ _ hlt] at this
    exact this
  · have hieq : i = nds.length := by omega
    subst hieq
    rw [List.getD_eq_getElem _ _ (by rw [List.length_append]; simp)]
    rw [List.getElem_concat_length _ _ _ rfl]
    rfl

theorem append_levels (nds : List Node) (id : ℕ) (v : List ℚ) (lvl : ℕ)
    (hL : LevelLists nds) : LevelLists (nds ++ [NewNode id v lvl]) := by
  intro n hn
  rcases List.mem_append.1 hn with h1 | h2
  · exact hL n h1
  · rcases List.mem_singleton.1 h2 with rfl
    simp [NewNode]

theorem append_fanout (mmax0 mmax : ℕ) (nds : List Node) (id : ℕ) (v : List ℚ)
    (lvl : ℕ) (hF : FanOut mmax0 mmax nds) :
    FanOut mmax0 mmax (nds ++ [NewNode id v lvl]) := by
  intro n hn l hl
  rcases List.mem_append.1 hn with h1 | h2
  · exact hF n h1 l hl
  · rcases List.mem_singleton.1 h2 with rfl
    have hz : (NewNode id v lvl).Neighbors.getD l [] = [] := by
      show (List.replicate (lvl + 1) ([] : List ℕ)).getD l [] = []
      by_cases hr : l < lvl + 1
      · rw [List.getD_eq_getElem _ _ (by simp; omega)]
        exact List.getElem_replicate _ _
      · exact List.getD_eq_default _ _ (by simp; omega)
    rw [hz]
    exact Nat.zero_le _

theorem minHeap_pop_some (c : MinHeap) (h0 : c.nodes ≠ []) :
    ∃ x c2, c.Pop = (some x, c2) := by
  cases hn : c.nodes with
  | nil => exact absurd hn h0
  | cons a rest =>
    refine ⟨a, ⟨(popBy minKey (a :: rest)).2⟩, ?_⟩
    rw [MinHeap.Pop, hn, popBy_fst minKey a rest]

theorem pushDists_ok (h : HNSW) (e : Node) :
    ∀ (lst : List ℕ) (tmp : MinHeap), (∀ n ∈ lst, n < h.Nodes.length) →
    (∀ x ∈ tmp.nodes, x.Id < h.Nodes.length) →
    ∃ tmp2, pushDists h e lst tmp = .ok tmp2 ∧
      ∀ x ∈ tmp2.nodes, x.Id < h.Nodes.length := by
  intro lst
  induction lst with
  | nil =>
    intro tmp _ hvalid
    exact ⟨tmp, by rw [pushDists], hvalid⟩
  | cons n rest ih =>
    intro tmp hb hvalid
    have hn : n < h.Nodes.length := hb n (List.mem_cons_self n rest)
    have hnode : h.Nodes[n]? = some h.Nodes[n] := List.getElem?_eq_getElem hn
    have hpv : ∀ x ∈ (tmp.Push ⟨h.DistanceFunc e.Vector (h.Nodes[n].Vector), n⟩).nodes,
        x.Id < h.Nodes.length := by
      intro x hx
      have hperm := minHeap_push_perm tmp ⟨h.DistanceFunc e.Vector (h.Nodes[n].Vector), n⟩
      rcases List.mem_cons.1 (hperm.mem_iff.1 hx) with rfl | hx2
      · exact hn
      · exact hvalid x hx2
    obtain ⟨tmp2, hok, hv2⟩ := ih (tmp.Push ⟨h.DistanceFunc e.Vector (h.Nodes[n].Vector), n⟩)
      (fun i hi => hb i (List.mem_cons_of_mem _ hi)) hpv
    refine ⟨tmp2, ?_, hv2⟩
    rw [pushDists]
    simp only [hnode]
    exact hok

theorem popCandidates_ok (h : HNSW) :
    ∀ (k : ℕ) (tmp : MinHeap), (∀ x ∈ tmp.nodes, x.Id < h.Nodes.length) →
    ∃ lst, popCandidates h tmp k = .ok lst ∧ lst.length ≤ k ∧
      ∀ id ∈ lst, id < h.Nodes.length := by
  intro k
  induction k with
  | zero =>
    intro tmp _
    exact ⟨[], by rw [popCandidates], by simp, by simp⟩
  | succ k ih =>
    intro tmp hvalid
    rw [popCandidates]
    by_cases h0 : tmp.Len = 0
    · rw [if_pos h0]
      exact ⟨[], rfl, by simp, by simp⟩
    · rw [if_neg h0]
      have hne : tmp.nodes ≠ [] := by
        intro hc
        exact h0 (by rw [MinHeap.Len, hc]; rfl)
      obtain ⟨item, tmp2, hpop⟩ := minHeap_pop_some tmp hne
      obtain ⟨hmem, hsub⟩ := minHeap_pop_mem hpop
      have hid : item.Id < h.Nodes.length := hvalid item hmem
      have hnode : h.Nodes[item.Id]? = some h.Nodes[item.Id] :=
        List.getElem?_eq_getElem hid
      obtain ⟨rest, hrest, hrlen, hrids⟩ := ih tmp2 (fun x hx => hvalid x (hsub x hx))
      refine ⟨item.Id :: rest, ?_, by simp; omega, ?_⟩
      · simp only [hpop, hnode, hrest]
      · intro i hi
        rcases List.mem_cons.1 hi with rfl | hi2
        · exact hid
        · exact hrids i hi2

theorem popCandidates_len_le (h : HNSW) :
    ∀ (k : ℕ) (tmp : MinHeap) (lst : List ℕ),
    popCandidates h tmp k = .ok lst → lst.length ≤ k := by
  intro k
  induction k with
  | zero =>
    intro tmp lst hp
    rw [popCandidates] at hp
    cases hp
    simp
  | succ k ih =>
    intro tmp lst hp
    rw [popCandidates] at hp
    by_cases h0 : tmp.Len = 0
    · rw [if_pos h0] at hp
      cases hp
      simp
    · rw [if_neg h0] at hp
      cases hpop : tmp.Pop with
      | mk fst snd =>
        cases fst with
        | none =>
          simp only [hpop] at hp
          cases hp
        | some item =>
          simp only [hpop] at hp
          cases hnode : h.Nodes[item.Id]? with
          | none =>
            simp only [hnode] at hp
            cases hp
          | some nd =>
            simp only [hnode] at hp
            cases hrec : popCandidates h snd k with
            | error e =>
              simp only [hrec] at hp
              cases hp
            | ok rest =>
              simp only [hrec] at hp
              cases hp
              have := ih snd rest hrec
              simp
              omega

theorem updateConnLoop_ok (level maxConn : ℕ) :
    ∀ (lst : List ℕ) (h : HNSW) (qIdx : ℕ),
    WFGraph h.Nodes → DenseIDs h.Nodes →
    qIdx < h.Nodes.length → (∀ nid ∈ lst, nid < h.Nodes.length) →
    ∃ h2, updateConnLoop h qIdx level maxConn lst = .ok h2 ∧
      h2.Nodes.length = h.Nodes.length ∧ h2.Mmax0 = h.Mmax0 ∧ h2.Mmax = h.Mmax ∧
      h2.EfConstruction = h.EfConstruction ∧ h2.EntryPoint = h.EntryPoint ∧
      WFGraph h2.Nodes ∧ DenseIDs h2.Nodes := by
  intro lst
  induction lst with
  | nil =>
    intro h qIdx hWF hD hq _
    exact ⟨h, by rw [updateConnLoop], rfl, rfl, rfl, rfl, rfl, hWF, hD⟩
  | cons nid rest ih =>
    intro h qIdx hWF hD hq hb
    have hrest : ∀ i ∈ rest, i < h.Nodes.length :=
      fun i hi => hb i (List.mem_cons_of_mem _ hi)
    have hnid : nid < h.Nodes.length := hb nid (List.mem_cons_self _ _)
    have hnode : h.Nodes[nid]? = some h.Nodes[nid] := List.getElem?_eq_getElem hnid
    have hein : h.Nodes[nid] ∈ h.Nodes := List.getElem_mem hnid
    by_cases hlev : level ≥ (h.Nodes[nid]).Neighbors.length
    · obtain ⟨h2, hok, hl2, hm0, hmx, hef2, hep2, hwf2, hd2⟩ :=
        ih h qIdx hWF hD hq hrest
      refine ⟨h2, ?_, hl2, hm0, hmx, hef2, hep2, hwf2, hd2⟩
      rw [updateConnLoop]
      simp only [hnode]
      rw [if_pos hlev]
      exact hok
    · have hnbsub : ∀ id ∈ (h.Nodes[nid]).Neighbors.getD level [],
          id < h.Nodes.length := by
        intro id hid
        refine hWF _ hein _ ?_ id hid
        rw [List.getD_eq_getElem _ _ (by omega)]
        exact List.getElem_mem _
      by_cases hcap : ((h.Nodes[nid]).Neighbors.getD level []).length + 1 ≤ maxConn
      · have hlenS := setNeighborsAt_length h.Nodes nid level
          ((h.Nodes[nid]).Neighbors.getD level [] ++ [qIdx])
        have hWF2 := setNeighborsAt_wf h.Nodes nid level
          ((h.Nodes[nid]).Neighbors.getD level [] ++ [qIdx]) hWF
          (by
            intro id hid
            rcases List.mem_append.1 hid with h1 | h1
            · exact hnbsub id h1
            · rcases List.mem_singleton.1 h1 with rfl
              exact hq)
        have hD2 := setNeighborsAt_dense h.Nodes nid level
          ((h.Nodes[nid]).Neighbors.getD level [] ++ [qIdx]) hD
        obtain ⟨h2, hok, hl2, hm0, hmx, hef2, hep2, hwf2, hd2⟩ :=
          ih { h with Nodes := setNeighborsAt h.Nodes nid level ((h.Nodes[nid]).Neighbors.getD level [] ++ [qIdx]) } qIdx hWF2 hD2
            (by
              show qIdx < (setNeighborsAt h.Nodes nid level
                ((h.Nodes[nid]).Neighbors.getD level [] ++ [qIdx])).length
              rw [hlenS]
              exact hq)
            (by
              intro i hi
              show i < (setNeighborsAt h.Nodes nid level
                ((h.Nodes[nid]).Neighbors.getD level [] ++ [qIdx])).length
              rw [hlenS]
              exact hrest i hi)
        refine ⟨h2, ?_, hl2.trans hlenS, hm0, hmx, hef2, hep2, hwf2, hd2⟩
        rw [updateConnLoop]
        simp only [hnode]
        rw [if_neg hlev, if_pos hcap]
        exact hok
      · have hqnode : h.Nodes[qIdx]? = some h.Nodes[qIdx] :=
          List.getElem?_eq_getElem hq
        have hseedv : ∀ x ∈ (NewMinHeap.Push
            ⟨h.DistanceFunc (h.Nodes[qIdx]).Vector (h.Nodes[nid]).Vector, qIdx⟩).nodes,
            x.Id < h.Nodes.length := by
          intro x hx
          rw [show (NewMinHeap.Push
              ⟨h.DistanceFunc (h.Nodes[qIdx]).Vector (h.Nodes[nid]).Vector, qIdx⟩).nodes =
            [⟨h.DistanceFunc (h.Nodes[qIdx]).Vector (h.Nodes[nid]).Vector, qIdx⟩]
            from pushBy_nil_eq minKey _] at hx
          rcases List.mem_singleton.1 hx with rfl
          exact hq
        obtain ⟨tmp1, hpd, hv1⟩ := pushDists_ok h (h.Nodes[nid])
          ((h.Nodes[nid]).Neighbors.getD level [])
          (NewMinHeap.Push
            ⟨h.DistanceFunc (h.Nodes[qIdx]).Vector (h.Nodes[nid]).Vector, qIdx⟩)
          hnbsub hseedv
        obtain ⟨cands, hpc, hclen, hcids⟩ := popCandidates_ok h maxConn tmp1 hv1
        have hlenS := setNeighborsAt_length h.Nodes nid level cands
        have hWF2 := setNeighborsAt_wf h.Nodes nid level cands hWF hcids
        have hD2 := setNeighborsAt_dense h.Nodes nid level cands hD
        obtain ⟨h2, hok, hl2, hm0, hmx, hef2, hep2, hwf2, hd2⟩ :=
          ih { h with Nodes := setNeighborsAt h.Nodes nid level cands } qIdx hWF2 hD2
            (by
              show qIdx < (setNeighborsAt h.Nodes nid level cands).length
              rw [hlenS]
              exact hq)
            (by
              intro i hi
              show i < (setNeighborsAt h.Nodes nid level cands).length
              rw [hlenS]
              exact hrest i hi)
        refine ⟨h2, ?_, hl2.trans hlenS, hm0, hmx, hef2, hep2, hwf2, hd2⟩
        rw [updateConnLoop]
        simp only [hnode]
        rw [if_neg hlev, if_neg hcap]
        simp only [hqnode, hpd, hpc]
        exact hok

theorem updateConnLoop_fanout (level maxConn : ℕ) :
    ∀ (lst : List ℕ) (h : HNSW) (qIdx : ℕ) (h2 : HNSW),
    updateConnLoop h qIdx level maxConn lst = .ok h2 →
    FanOut h.Mmax0 h.Mmax h.Nodes →
    maxConn = (if level = 0 then h.Mmax0 else h.Mmax) →
    FanOut h2.Mmax0 h2.Mmax h2.Nodes ∧ h2.Mmax0 = h.Mmax0 ∧ h2.Mmax = h.Mmax := by
  intro lst
  induction lst with
  | nil =>
    intro h qIdx h2 hp hF _
    rw [updateConnLoop] at hp
    cases hp
    exact ⟨hF, rfl, rfl⟩
  | cons nid rest ih =>
    intro h qIdx h2 hp hF hmc
    rw [updateConnLoop] at hp
    cases hnode : h.Nodes[nid]? with
    | none =>
      simp only [hnode] at hp
      cases hp
    | some e =>
      simp only [hnode] at hp
      by_cases hlev : level ≥ e.Neighbors.length
      · rw [if_pos hlev] at hp
        exact ih h qIdx h2 hp hF hmc
      · rw [if_neg hlev] at hp
        by_cases hcap : (e.Neighbors.getD level []).length + 1 ≤ maxConn
        · rw [if_pos hcap] at hp
          have hF2 := setNeighborsAt_fanout h.Mmax0 h.Mmax h.Nodes nid level
            (e.Neighbors.getD level [] ++ [qIdx]) hF
            (by rw [List.length_append, List.length_singleton, ← hmc]; exact hcap)
          exact ih { h with Nodes := setNeighborsAt h.Nodes nid level (e.Neighbors.getD level [] ++ [qIdx]) } qIdx h2 hp hF2 hmc
        · rw [if_neg hcap] at hp
          cases hqn : h.Nodes[qIdx]? with
          | none =>
            simp only [hqn] at hp
            cases hp
          | some q =>
            simp only [hqn] at hp
            cases hpd : pushDists h e (e.Neighbors.getD level [])
                (NewMinHeap.Push ⟨h.DistanceFunc q.Vector e.Vector, qIdx⟩) with
            | error er =>
              simp only [hpd] at hp
              cases hp
            | ok tmp1 =>
              simp only [hpd] at hp
              cases hpc : popCandidates h tmp1 maxConn with
              | error er =>
                simp only [hpc] at hp
                cases hp
              | ok cands =>
                simp only [hpc] at hp
                have hF2 := setNeighborsAt_fanout h.Mmax0 h.Mmax h.Nodes nid level
                  cands hF
                  (by rw [← hmc]; exact popCandidates_len_le h maxConn tmp1 cands hpc)
                exact ih { h with Nodes := setNeighborsAt h.Nodes nid level cands }
                  qIdx h2 hp hF2 hmc

theorem greedyLoop_mem (h : HNSW) (query : List ℚ) (level : ℕ) (hWF : WFGraph h.Nodes) :
    ∀ (n : ℕ) (best : ℚ) (cur : Node), greedyMeasure h query best ≤ n → cur ∈ h.Nodes →
    ∃ res, greedyLoop h query level cur best = .ok res ∧ res ∈ h.Nodes := by
  intro n
  induction n with
  | zero =>
    intro best cur hm hcur
    obtain ⟨r, hr⟩ := findImprove_ok h query best _ (scanList_bounded h hWF cur hcur level)
    cases r with
    | none =>
      refine ⟨cur, ?_, hcur⟩
      rw [greedyLoop]
      split
      next e heq => rw [hr] at heq; cases heq
      next heq => rfl
      next nid nb dist heq => rw [hr] at heq; simp at heq
    | some r3 =>
      obtain ⟨nid, nb, dist⟩ := r3
      obtain ⟨hlen, hnode, hdist, hlt⟩ := findImprove_spec h query best _ nid nb dist hr
      have := greedyMeasure_lt h query best nid nb hlen hnode (hdist ▸ hlt)
      omega
  | succ n ih =>
    intro best cur hm hcur
    obtain ⟨r, hr⟩ := findImprove_ok h query best _ (scanList_bounded h hWF cur hcur level)
    cases r with
    | none =>
      refine ⟨cur, ?_, hcur⟩
      rw [greedyLoop]
      split
      next e heq => rw [hr] at heq; cases heq
      next heq => rfl
      next nid nb dist heq => rw [hr] at heq; simp at heq
    | some r3 =>
      obtain ⟨nid, nb, dist⟩ := r3
      obtain ⟨hlen, hnode, hdist, hlt⟩ := findImprove_spec h query best _ nid nb dist hr
      have hmlt := greedyMeasure_lt h query best nid nb hlen hnode (hdist ▸ hlt)
      rw [← hdist] at hmlt
      have hnbin : nb ∈ h.Nodes := by
        rw [List.getD_eq_getElem _ _ hlen] at hnode
        rw [← hnode]
        exact List.getElem_mem hlen
      obtain ⟨res, hres, hrin⟩ := ih dist nb (by omega) hnbin
      have hgl : greedyLoop h query level cur best = greedyLoop h query level nb dist := by
        rw [greedyLoop]
        split
        next e heq => rw [hr] at heq; cases heq
        next heq => rw [hr] at heq; simp at heq
        next nid2 nb2 dist2 heq =>
          rw [hr] at heq
          simp only [Except.ok.injEq, Option.some.injEq, Prod.mk.injEq] at heq
          obtain ⟨rfl, rfl, rfl⟩ := heq
          rfl
      exact ⟨res, by rw [hgl]; exact hres, hrin⟩

theorem greedySearchLayer_mem (h : HNSW) (query : List ℚ) (entry : Node)
    (level : ℕ) (hWF : WFGraph h.Nodes) (hin : entry ∈ h.Nodes) :
    ∃ res, greedySearchLayer h query entry level = .ok res ∧ res ∈ h.Nodes := by
  unfold greedySearchLayer
  exact greedyLoop_mem h query level hWF
    (greedyMeasure h query (h.DistanceFunc query entry.Vector))
    (h.DistanceFunc query entry.Vector) entry (le_refl _) hin

theorem greedyDescent_mem (h : HNSW) (query : List ℚ) (hWF : WFGraph h.Nodes) :
    ∀ (l : ℕ) (entry : Node), entry ∈ h.Nodes →
    ∃ res, greedyDescent h query l entry = .ok res ∧ res ∈ h.Nodes := by
  intro l
  induction l with
  | zero =>
    intro entry hin
    exact ⟨entry, by rw [greedyDescent], hin⟩
  | succ l2 ih =>
    intro entry hin
    obtain ⟨mid, hgs, hmid⟩ := greedySearchLayer_mem h query entry (l2 + 1) hWF hin
    obtain ⟨res, hres, hr⟩ := ih mid hmid
    refine ⟨res, ?_, hr⟩
    rw [greedyDescent]
    simp only [hgs]
    exact hres

theorem greedyPhase1_mem (h : HNSW) (vector : List ℚ) (level : ℕ)
    (hWF : WFGraph h.Nodes) :
    ∀ (lc : ℕ) (ep : Node), ep ∈ h.Nodes →
    ∃ res, greedyPhase1 h vector level lc ep = .ok res ∧ res ∈ h.Nodes := by
  intro lc
  induction lc with
  | zero =>
    intro ep hin
    exact ⟨ep, by rw [greedyPhase1], hin⟩
  | succ lc2 ih =>
    intro ep hin
    rw [greedyPhase1]
    by_cases hle : lc2 + 1 ≤ level
    · rw [if_pos hle]
      exact ⟨ep, rfl, hin⟩
    · rw [if_neg hle]
      obtain ⟨mid, hgs, hmid⟩ := greedySearchLayer_mem h vector ep (lc2 + 1) hWF hin
      obtain ⟨res, hres, hr⟩ := ih mid hmid
      refine ⟨res, ?_, hr⟩
      simp only [hgs]
      exact hres

theorem insertStep_ok (vector : List ℚ) (lc : ℕ) (h : HNSW) (qIdx : ℕ) (ep : Node)
    (hWF : WFGraph h.Nodes) (hD : DenseIDs h.Nodes) (hef : 1 ≤ h.EfConstruction)
    (hq : qIdx < h.Nodes.length) (hin : ep ∈ h.Nodes) :
    ∃ nn h2 ep2,
      searchLayer h vector ep h.EfConstruction lc = .ok nn ∧
      updateBidirectionalConnections h qIdx (if nn.length ≤ (if lc = 0 then h.Mmax0 else h.Mmax) then nn else nn.take (if lc = 0 then h.Mmax0 else h.Mmax)) lc (if lc = 0 then h.Mmax0 else h.Mmax) = .ok h2 ∧
      epUpdate h2 nn ep = .ok ep2 ∧
      h2.Nodes.length = h.Nodes.length ∧ h2.Mmax0 = h.Mmax0 ∧ h2.Mmax = h.Mmax ∧
      h2.EfConstruction = h.EfConstruction ∧ h2.EntryPoint = h.EntryPoint ∧
      WFGraph h2.Nodes ∧ DenseIDs h2.Nodes ∧ ep2 ∈ h2.Nodes := by
  obtain ⟨hid, hgd⟩ := mem_dense hD hin
  obtain ⟨nn, hsl, hlo, hhi, hnd, hvalid, hsort, -⟩ :=
    searchLayer_ok h vector ep h.EfConstruction lc hef hWF hid hgd
  cases nn with
  | nil => exact absurd hlo (by simp)
  | cons i0 nrest =>
    have hi0len : i0 < h.Nodes.length := hvalid i0 (List.mem_cons_self _ _)
    have htr_sub : ∀ id ∈ (if (i0 :: nrest).length ≤ (if lc = 0 then h.Mmax0 else h.Mmax) then i0 :: nrest else (i0 :: nrest).take (if lc = 0 then h.Mmax0 else h.Mmax)), id < h.Nodes.length := by
      intro id hidm
      by_cases hc : (i0 :: nrest).length ≤ (if lc = 0 then h.Mmax0 else h.Mmax)
      · rw [if_pos hc] at hidm
        exact hvalid id hidm
      · rw [if_neg hc] at hidm
        exact hvalid id (List.take_subset _ _ hidm)
    have hWF1 := setNeighborsAt_wf h.Nodes qIdx lc (if (i0 :: nrest).length ≤ (if lc = 0 then h.Mmax0 else h.Mmax) then i0 :: nrest else (i0 :: nrest).take (if lc = 0 then h.Mmax0 else h.Mmax)) hWF htr_sub
    have hD1 := setNeighborsAt_dense h.Nodes qIdx lc (if (i0 :: nrest).length ≤ (if lc = 0 then h.Mmax0 else h.Mmax) then i0 :: nrest else (i0 :: nrest).take (if lc = 0 then h.Mmax0 else h.Mmax)) hD
    have hlen1 := setNeighborsAt_length h.Nodes qIdx lc (if (i0 :: nrest).length ≤ (if lc = 0 then h.Mmax0 else h.Mmax) then i0 :: nrest else (i0 :: nrest).take (if lc = 0 then h.Mmax0 else h.Mmax))
    obtain ⟨h2, hucl, hl2, hm0, hmx, hef2, hep2, hwf2, hd2⟩ :=
      updateConnLoop_ok lc (if lc = 0 then h.Mmax0 else h.Mmax) (if (i0 :: nrest).length ≤ (if lc = 0 then h.Mmax0 else h.Mmax) then i0 :: nrest else (i0 :: nrest).take (if lc = 0 then h.Mmax0 else h.Mmax)) { h with Nodes := setNeighborsAt h.Nodes qIdx lc (if (i0 :: nrest).length ≤ (if lc = 0 then h.Mmax0 else h.Mmax) then i0 :: nrest else (i0 :: nrest).take (if lc = 0 then h.Mmax0 else h.Mmax)) } qIdx hWF1 hD1
        (by
          show qIdx < (setNeighborsAt h.Nodes qIdx lc (if (i0 :: nrest).length ≤ (if lc = 0 then h.Mmax0 else h.Mmax) then i0 :: nrest else (i0 :: nrest).take (if lc = 0 then h.Mmax0 else h.Mmax))).length
          rw [hlen1]
          exact hq)
        (by
          intro i hi
          show i < (setNeighborsAt h.Nodes qIdx lc (if (i0 :: nrest).length ≤ (if lc = 0 then h.Mmax0 else h.Mmax) then i0 :: nrest else (i0 :: nrest).take (if lc = 0 then h.Mmax0 else h.Mmax))).length
          rw [hlen1]
          exact htr_sub i hi)
    have hl2h : h2.Nodes.length = h.Nodes.length := hl2.trans hlen1
    have hi02 : i0 < h2.Nodes.length := by
      rw [hl2h]
      exact hi0len
    have hnode2 : h2.Nodes[i0]? = some h2.Nodes[i0] := List.getElem?_eq_getElem hi02
    refine ⟨i0 :: nrest, h2, h2.Nodes[i0], hsl, ?_, ?_, hl2h, hm0, hmx, hef2, hep2,
      hwf2, hd2, List.getElem_mem hi02⟩
    · unfold updateBidirectionalConnections
      exact hucl
    · rw [epUpdate]
      simp only [hnode2]

theorem insertLayers_ok (vector : List ℚ) :
    ∀ (lc : ℕ) (h : HNSW) (qIdx : ℕ) (ep : Node),
    WFGraph h.Nodes → DenseIDs h.Nodes → 1 ≤ h.EfConstruction →
    qIdx < h.Nodes.length → ep ∈ h.Nodes →
    ∃ h2, insertLayers h vector qIdx lc ep = .ok h2 ∧
      h2.Nodes.length = h.Nodes.length ∧ h2.Mmax0 = h.Mmax0 ∧ h2.Mmax = h.Mmax ∧
      h2.EfConstruction = h.EfConstruction ∧ h2.EntryPoint = h.EntryPoint ∧
      WFGraph h2.Nodes ∧ DenseIDs h2.Nodes := by
  intro lc
  induction lc with
  | zero =>
    intro h qIdx ep hWF hD hef hq hin
    obtain ⟨nn, h2, ep2, hsl, hub, hepu, hl2, hm0, hmx, hef2, hepp, hwf2, hd2, hin2⟩ :=
      insertStep_ok vector 0 h qIdx ep hWF hD hef hq hin
    refine ⟨h2, ?_, hl2, hm0, hmx, hef2, hepp, hwf2, hd2⟩
    rw [insertLayers]
    split
    next e heq => rw [hsl] at heq; cases heq
    next nres heq =>
      rw [hsl] at heq
      cases heq
      split
      next e heq2 => rw [hub] at heq2; cases heq2
      next hmid heq2 =>
        rw [hub] at heq2
        cases heq2
        split
        next e heq3 => rw [hepu] at heq3; cases heq3
        next epr heq3 => rfl
  | succ lc2 ih =>
    intro h qIdx ep hWF hD hef hq hin
    obtain ⟨nn, h2, ep2, hsl, hub, hepu, hl2, hm0, hmx, hef2, hepp, hwf2, hd2, hin2⟩ :=
      insertStep_ok vector (lc2 + 1) h qIdx ep hWF hD hef hq hin
    obtain ⟨h3, hok3, hl3, hm03, hmx3, hef3, hep3, hwf3, hd3⟩ :=
      ih h2 qIdx ep2 hwf2 hd2 (by rw [hef2]; exact hef) (by rw [hl2]; exact hq) hin2
    refine ⟨h3, ?_, hl3.trans hl2, hm03.trans hm0, hmx3.trans hmx, hef3.trans hef2,
      hep3.trans hepp, hwf3, hd3⟩
    rw [insertLayers]
    split
    next e heq => rw [hsl] at heq; cases heq
    next nres heq =>
      rw [hsl] at heq
      cases heq
      split
      next e heq2 => rw [hub] at heq2; cases heq2
      next hmid heq2 =>
        rw [hub] at heq2
        cases heq2
        split
        next e heq3 => rw [hepu] at heq3; cases heq3
        next epr heq3 =>
          rw [hepu] at heq3
          cases heq3
          exact hok3

theorem insertLayers_fanout (vector : List ℚ) :
    ∀ (lc : ℕ) (h : HNSW) (qIdx : ℕ) (ep : Node) (h2 : HNSW),
    insertLayers h vector qIdx lc ep = .ok h2 →
    FanOut h.Mmax0 h.Mmax h.Nodes →
    FanOut h2.Mmax0 h2.Mmax h2.Nodes ∧ h2.Mmax0 = h.Mmax0 ∧ h2.Mmax = h.Mmax := by
  intro lc
  induction lc with
  | zero =>
    intro h qIdx ep h2 hp hF
    rw [insertLayers] at hp
    revert hp
    generalize hcap : (if (0 : ℕ) = 0 then h.Mmax0 else h.Mmax) = cap
    intro hp
    cases hsl : searchLayer h vector ep h.EfConstruction 0 with
    | error e =>
      simp only [hsl] at hp
      cases hp
    | ok nn =>
      simp only [hsl] at hp
      cases hub : updateBidirectionalConnections h qIdx
          (if nn.length ≤ cap then nn else nn.take cap) 0 cap with
      | error e =>
        simp only [hub] at hp
        cases hp
      | ok hmid =>
        simp only [hub] at hp
        unfold updateBidirectionalConnections at hub
        have htrlen : (if nn.length ≤ cap then nn else nn.take cap).length ≤ cap := by
          split
          next hc => exact hc
          next hc =>
            rw [List.length_take]
            exact min_le_left _ _
        have hF1 := setNeighborsAt_fanout h.Mmax0 h.Mmax h.Nodes qIdx 0
          (if nn.length ≤ cap then nn else nn.take cap) hF (by rw [hcap]; exact htrlen)
        obtain ⟨hFm, hm0, hmx⟩ := updateConnLoop_fanout 0 cap
          (if nn.length ≤ cap then nn else nn.take cap)
          { h with Nodes := setNeighborsAt h.Nodes qIdx 0 (if nn.length ≤ cap then nn else nn.take cap) }
          qIdx hmid hub hF1 hcap.symm
        cases hepu : epUpdate hmid nn ep with
        | error e =>
          simp only [hepu] at hp
          cases hp
        | ok ep2 =>
          simp only [hepu] at hp
          cases hp
          exact ⟨hFm, hm0, hmx⟩
  | succ lc2 ih =>
    intro h qIdx ep h2 hp hF
    rw [insertLayers] at hp
    revert hp
    generalize hcap : (if lc2 + 1 = 0 then h.Mmax0 else h.Mmax) = cap
    intro hp
    cases hsl : searchLayer h vector ep h.EfConstruction (lc2 + 1) with
    | error e =>
      simp only [hsl] at hp
      cases hp
    | ok nn =>
      simp only [hsl] at hp
      cases hub : updateBidirectionalConnections h qIdx
          (if nn.length ≤ cap then nn else nn.take cap) (lc2 + 1) cap with
      | error e =>
        simp only [hub] at hp
        cases hp
      | ok hmid =>
        simp only [hub] at hp
        unfold updateBidirectionalConnections at hub
        have htrlen : (if nn.length ≤ cap then nn else nn.take cap).length ≤ cap := by
          split
          next hc => exact hc
          next hc =>
            rw [List.length_take]
            exact min_le_left _ _
        have hF1 := setNeighborsAt_fanout h.Mmax0 h.Mmax h.Nodes qIdx (lc2 + 1)
          (if nn.length ≤ cap then nn else nn.take cap) hF (by rw [hcap]; exact htrlen)
        obtain ⟨hFm, hm0, hmx⟩ := updateConnLoop_fanout (lc2 + 1) cap
          (if nn.length ≤ cap then nn else nn.take cap)
          { h with Nodes := setNeighborsAt h.Nodes qIdx (lc2 + 1) (if nn.length ≤ cap then nn else nn.take cap) }
          qIdx hmid hub hF1 hcap.symm
        cases hepu : epUpdate hmid nn ep with
        | error e =>
          simp only [hepu] at hp
          cases hp
        | ok ep2 =>
          simp only [hepu] at hp
          obtain ⟨hF3, hm03, hmx3⟩ := ih hmid qIdx ep2 h2 hp hFm
          exact ⟨hF3, hm03.trans hm0, hmx3.trans hmx⟩

theorem Insert_ok (h : HNSW) (vector : List ℚ) (id level : ℕ)
    (hv : vector ≠ []) (hWF : WFGraph h.Nodes) (hD : DenseIDs h.Nodes)
    (hEp : EPValid h) (hef : 1 ≤ h.EfConstruction) (hid : id = h.Nodes.length) :
    ∃ h2, Insert h vector id level = .ok h2 ∧
      h2.Nodes.length = h.Nodes.length + 1 ∧ h2.Mmax0 = h.Mmax0 ∧ h2.Mmax = h.Mmax ∧
      h2.EfConstruction = h.EfConstruction ∧
      WFGraph h2.Nodes ∧ DenseIDs h2.Nodes ∧ EPValid h2 := by
  subst hid
  have hWFe : WFGraph (h.Nodes ++ [NewNode h.Nodes.length vector level]) :=
    append_wf h.Nodes h.Nodes.length vector level hWF
  have hDe : DenseIDs (h.Nodes ++ [NewNode h.Nodes.length vector level]) :=
    append_dense h.Nodes vector level hD
  have hlenext : (h.Nodes ++ [NewNode h.Nodes.length vector level]).length =
      h.Nodes.length + 1 := by simp
  rw [Insert]
  rw [if_neg (show ¬ vector.length = 0 from fun hc => hv (List.length_eq_zero.1 hc))]
  cases hE : h.EntryPoint with
  | none =>
    refine ⟨{ h with EntryPoint := some h.Nodes.length, Nodes := h.Nodes ++ [NewNode h.Nodes.length vector level] },
      rfl, by simp, rfl, rfl, rfl, hWFe, hDe, Or.inl (by simp)⟩
  | some epId =>
    have hepId : epId < h.Nodes.length := epValid_some hEp hE
    have hnode : h.Nodes[epId]? = some h.Nodes[epId] := List.getElem?_eq_getElem hepId
    have hepin : h.Nodes[epId] ∈ h.Nodes ++ [NewNode h.Nodes.length vector level] :=
      List.mem_append_left _ (List.getElem_mem hepId)
    obtain ⟨ep1, hg1, hin1⟩ := greedyPhase1_mem { h with Nodes := h.Nodes ++ [NewNode h.Nodes.length vector level] } vector level hWFe
      (h.Nodes[epId]).Level (h.Nodes[epId]) hepin
    obtain ⟨h2, hil, hl2, hm0, hmx, hef2, hep2, hwf2, hd2⟩ :=
      insertLayers_ok vector (min (h.Nodes[epId]).Level level) { h with Nodes := h.Nodes ++ [NewNode h.Nodes.length vector level] }
        h.Nodes.length ep1 hWFe hDe hef (by rw [hlenext]; omega) hin1
    have hl2e : h2.Nodes.length = h.Nodes.length + 1 := hl2.trans hlenext
    rw [hE] at hg1 hil
    simp only [hnode, hg1, hil]
    by_cases hlev : level > (h.Nodes[epId]).Level
    · rw [if_pos hlev]
      refine ⟨{ h2 with EntryPoint := some h.Nodes.length }, rfl, hl2e, hm0, hmx,
        hef2, hwf2, hd2, Or.inl ?_⟩
      show (some h.Nodes.length).getD 0 < h2.Nodes.length
      rw [hl2e]
      simp
    · rw [if_neg hlev]
      refine ⟨h2, rfl, hl2e, hm0, hmx, hef2, hwf2, hd2, Or.inl ?_⟩
      show h2.EntryPoint.getD 0 < h2.Nodes.length
      have : h2.EntryPoint = some epId := hep2.trans hE
      rw [this, hl2e]
      show epId < h.Nodes.length + 1
      omega

theorem Insert_fanout (h : HNSW) (vector : List ℚ) (id level : ℕ) (h2 : HNSW)
    (hp : Insert h vector id level = .ok h2) (hF : FanOut h.Mmax0 h.Mmax h.Nodes) :
    FanOut h2.Mmax0 h2.Mmax h2.Nodes ∧ h2.Mmax0 = h.Mmax0 ∧ h2.Mmax = h.Mmax := by
  rw [Insert] at hp
  by_cases hv : vector.length = 0
  · rw [if_pos hv] at hp
    cases hp
  · rw [if_neg hv] at hp
    have hFe : FanOut h.Mmax0 h.Mmax (h.Nodes ++ [NewNode id vector level]) :=
      append_fanout h.Mmax0 h.Mmax h.Nodes id vector level hF
    cases hE : h.EntryPoint with
    | none =>
      simp only [hE] at hp
      cases hp
      exact ⟨hFe, rfl, rfl⟩
    | some epId =>
      simp only [hE] at hp
      cases hnode : h.Nodes[epId]? with
      | none =>
        simp only [hnode] at hp
        cases hp
      | some ep =>
        simp only [hnode] at hp
        cases hg : greedyPhase1 { h with Nodes := h.Nodes ++ [NewNode id vector level], EntryPoint := some epId }
            vector level ep.Level ep with
        | error e =>
          simp only [hg] at hp
          cases hp
        | ok ep1 =>
          simp only [hg] at hp
          cases hil : insertLayers { h with Nodes := h.Nodes ++ [NewNode id vector level], EntryPoint := some epId }
              vector h.Nodes.length (min ep.Level level) ep1 with
          | error e =>
            simp only [hil] at hp
            cases hp
          | ok hmid =>
            simp only [hil] at hp
            obtain ⟨hFm, e0, e1⟩ := insertLayers_fanout vector (min ep.Level level)
              { h with Nodes := h.Nodes ++ [NewNode id vector level], EntryPoint := some epId }
              h.Nodes.length ep1 hmid hil hFe
            by_cases hlev : level > ep.Level
            · rw [if_pos hlev] at hp
              cases hp
              exact ⟨hFm, e0, e1⟩
            · rw [if_neg hlev] at hp
              cases hp
              exact ⟨hFm, e0, e1⟩

/-- A sequence of Insert calls, each given as (vector, id, level); the
level stands for the value the injected random source produced. -/
def runInserts (h : HNSW) : List (List ℚ × ℕ × ℕ) → Except GoPanic HNSW
  | [] => .ok h
  | (v, id, lv) :: rest =>
    match Insert h v id lv with
    | .error e => .error e
    | .ok h2 => runInserts h2 rest

/-- C2: bounded fan-out is an invariant of insertion: if every node of the
index keeps at most Mmax0 neighbors at layer 0 and at most Mmax at each
layer 1..L_n, then after any sequence of Insert calls that returns
successfully every node still does, with the caps unchanged. -/
theorem C2_bounded_fanout :
    ∀ (ops : List (List ℚ × ℕ × ℕ)) (h h2 : HNSW),
    runInserts h ops = .ok h2 → FanOut h.Mmax0 h.Mmax h.Nodes →
    FanOut h2.Mmax0 h2.Mmax h2.Nodes ∧ h2.Mmax0 = h.Mmax0 ∧ h2.Mmax = h.Mmax := by
  intro ops
  induction ops with
  | nil =>
    intro h h2 hp hF
    rw [runInserts] at hp
    cases hp
    exact ⟨hF, rfl, rfl⟩
  | cons op rest ih =>
    intro h h2 hp hF
    obtain ⟨v, id, lv⟩ := op
    rw [runInserts] at hp
    cases hins : Insert h v id lv with
    | error e =>
      simp only [hins] at hp
      cases hp
    | ok hmid =>
      simp only [hins] at hp
      obtain ⟨hFm, e0, e1⟩ := Insert_fanout h v id lv hmid hins hF
      obtain ⟨hF2, f0, f1⟩ := ih hmid h2 hp hFm
      exact ⟨hF2, f0.trans e0, f1.trans e1⟩

/-- An initially empty index used by witnesses. -/
def wStart : HNSW :=
  { Nodes := [], Mmax := 2, Mmax0 := 3, EfConstruction := 1,
    DistanceFunc := fun _ _ => 0, EntryPoint := none }

/-- The index wStart after inserting vector [5] with id 0 at level 1. -/
def wAfterC2 : HNSW :=
  { wStart with EntryPoint := some 0, Nodes := [NewNode 0 [5] 1] }

/-- Witness for C2: one insert into the empty index. -/
theorem C2_bounded_fanout_witness :
    runInserts wStart [([5], 0, 1)] = .ok wAfterC2 ∧
    FanOut wStart.Mmax0 wStart.Mmax wStart.Nodes ∧
    (FanOut wAfterC2.Mmax0 wAfterC2.Mmax wAfterC2.Nodes ∧
      wAfterC2.Mmax0 = wStart.Mmax0 ∧ wAfterC2.Mmax = wStart.Mmax) :=
  ⟨rfl, by decide, C2_bounded_fanout [([5], 0, 1)] wStart wAfterC2 rfl (by decide)⟩

/-- The identity key of the uint64 heap of part_001: container/heap
orders the raw encoded uint64 values by unsigned comparison, modelled by
the generic sift heap over ℕ. -/
def u64Key (x : ℕ) : ℕ := x

/-- The pop loop of simpleSelectNeighbors (part_001 lines 222-235):
while the heap is non-empty and fewer than M neighbors are chosen, pop
the smallest encoded item, decode its id, skip it when itemID > len
(the source guard; itemID = len passes the guard and the slice access
h.Nodes[itemID] then panics), otherwise keep the node.  budget counts
the remaining appends (M - len(neighbors)). -/
def simpleSelectLoop (h : HNSW) : List ℕ → ℕ → Except GoPanic (List ℕ)
  | [], _ => .ok []
  | _ :: _, 0 => .ok []
  | a :: rest, budget + 1 =>
    if h.Nodes.length < (DecodeHeapItem (((popBy u64Key (a :: rest)).1).getD 0)).2 then
      simpleSelectLoop h ((popBy u64Key (a :: rest)).2) (budget + 1)
    else
      match h.Nodes[(DecodeHeapItem (((popBy u64Key (a :: rest)).1).getD 0)).2]? with
      | none => .error .indexOutOfRange
      | some _ =>
        match simpleSelectLoop h ((popBy u64Key (a :: rest)).2) budget with
        | .error e => .error e
        | .ok ns => .ok ((DecodeHeapItem (((popBy u64Key (a :: rest)).1).getD 0)).2 :: ns)
termination_by cand _ => cand.length
decreasing_by
  all_goals
    rw [popBy_snd_length]
    simp

/-- simpleSelectNeighbors (part_001 lines 220-236), returning the chosen
node slots. -/
def simpleSelectNeighbors (h : HNSW) (candidates : List ℕ) (M : ℕ) :
    Except GoPanic (List ℕ) :=
  simpleSelectLoop h candidates M

theorem simpleSelectLoop_ok (h : HNSW) :
    ∀ (n : ℕ) (cand : List ℕ) (budget : ℕ), cand.length ≤ n →
    (∀ x ∈ cand, (DecodeHeapItem x).2 < h.Nodes.length) →
    ∃ ns, simpleSelectLoop h cand budget = .ok ns ∧
      ∀ i ∈ ns, i < h.Nodes.length := by
  intro n
  induction n with
  | zero =>
    intro cand budget hlen hids
    cases cand with
    | nil => exact ⟨[], by rw [simpleSelectLoop], by simp⟩
    | cons a rest => simp at hlen
  | succ n ih =>
    intro cand budget hlen hids
    cases cand with
    | nil => exact ⟨[], by rw [simpleSelectLoop], by simp⟩
    | cons a rest =>
      cases budget with
      | zero => exact ⟨[], by rw [simpleSelectLoop], by simp⟩
      | succ b =>
        have hitem : ((popBy u64Key (a :: rest)).1).getD 0 = a := by
          rw [popBy_fst u64Key a rest]
          rfl
        have hida : (DecodeHeapItem a).2 < h.Nodes.length :=
          hids a (List.mem_cons_self _ _)
        have hnode : h.Nodes[(DecodeHeapItem a).2]? =
            some h.Nodes[(DecodeHeapItem a).2] := List.getElem?_eq_getElem hida
        have hperm := popBy_snd_perm u64Key a rest
        obtain ⟨ns, hns, hnsids⟩ := ih ((popBy u64Key (a :: rest)).2) b
          (by rw [popBy_snd_length]; simp at hlen; omega)
          (fun x hx => hids x (List.mem_cons_of_mem a (hperm.mem_iff.1 hx)))
        rw [simpleSelectLoop, hitem]
        rw [if_neg (show ¬ h.Nodes.length < (DecodeHeapItem a).2 by omega)]
        simp only [hnode, hns]
        refine ⟨(DecodeHeapItem a).2 :: ns, rfl, ?_⟩
        intro i hi
        rcases List.mem_cons.1 hi with rfl | hi2
        · exact hida
        · exact hnsids i hi2

theorem KNN_Search_safe (h : HNSW) (hWF : WFGraph h.Nodes) (hD : DenseIDs h.Nodes)
    (hEp : EPValid h) (query : List ℚ) (K ef : ℕ) (hK : 1 ≤ K) :
    (∃ lst, KNN_Search h query K ef = .ok lst) ∨
      KNN_Search h query K ef = .error .sliceBounds := by
  rw [KNN_Search]
  cases hE : h.EntryPoint with
  | none => exact Or.inl ⟨[], rfl⟩
  | some epId =>
    have hepId : epId < h.Nodes.length := epValid_some hEp hE
    have hnode : h.Nodes[epId]? = some h.Nodes[epId] := List.getElem?_eq_getElem hepId
    obtain ⟨e2, hgd, he2⟩ := greedyDescent_mem h query hWF
      (h.Nodes[epId]).Level (h.Nodes[epId]) (List.getElem_mem hepId)
    obtain ⟨hid2, hgd2⟩ := mem_dense hD he2
    have hef1 : 1 ≤ (if ef < K then K else ef) := by
      split
      · omega
      · omega
    obtain ⟨cands, hsl, hlo, hhi, hnd, hvalid, hsort, -⟩ :=
      searchLayer_ok h query e2 (if ef < K then K else ef) 0 hef1 hWF hid2 hgd2
    simp only [hnode, hgd, hsl]
    by_cases htr : K ≤ cands.length
    · exact Or.inl ⟨cands.take K, by rw [goSliceTake, if_pos htr]⟩
    · exact Or.inr (by rw [goSliceTake, if_neg htr])

/-- C10: under the dense-id discipline (each Insert gets id = current
store size, so every stored id addresses a store slot), every node-store
access performed by Insert, searchLayer, greedySearchLayer, KNN_Search
and simpleSelectNeighbors is in bounds: Insert of a nonempty vector
succeeds and preserves the discipline, the two layer searches always
return a result, KNN_Search can only fail with the slice-truncation
panic (never a store access), and the off-by-one guard of
simpleSelectNeighbors never admits an out-of-range id when the heap
holds store-valid ids. -/
theorem C10_dense_store_safety (h : HNSW)
    (hWF : WFGraph h.Nodes) (hD : DenseIDs h.Nodes) (hEp : EPValid h)
    (hef : 1 ≤ h.EfConstruction) :
    (∀ vector level, vector ≠ [] →
      ∃ h2, Insert h vector h.Nodes.length level = .ok h2 ∧
        h2.Nodes.length = h.Nodes.length + 1 ∧ WFGraph h2.Nodes ∧ DenseIDs h2.Nodes ∧
        EPValid h2 ∧ h2.EfConstruction = h.EfConstruction) ∧
    (∀ query entry ef level, 1 ≤ ef → entry ∈ h.Nodes →
      ∃ res, searchLayer h query entry ef level = .ok res) ∧
    (∀ query entry level, entry ∈ h.Nodes →
      ∃ res, greedySearchLayer h query entry level = .ok res) ∧
    (∀ query K ef, 1 ≤ K →
      (∃ lst, KNN_Search h query K ef = .ok lst) ∨
        KNN_Search h query K ef = .error .sliceBounds) ∧
    (∀ cand M, (∀ x ∈ cand, (DecodeHeapItem x).2 < h.Nodes.length) →
      ∃ ns, simpleSelectNeighbors h cand M = .ok ns ∧
        ∀ i ∈ ns, i < h.Nodes.length) := by
  refine ⟨?_, ?_, ?_, ?_, ?_⟩
  · intro vector level hv
    obtain ⟨h2, hok, hl, hm0, hmx, hefq, hwf, hd, hep⟩ :=
      Insert_ok h vector h.Nodes.length level hv hWF hD hEp hef rfl
    exact ⟨h2, hok, hl, hwf, hd, hep, hefq⟩
  · intro query entry ef level hef2 hin
    obtain ⟨hid, hgd⟩ := mem_dense hD hin
    obtain ⟨res, hres, -⟩ := searchLayer_ok h query entry ef level hef2 hWF hid hgd
    exact ⟨res, hres⟩
  · intro query entry level hin
    obtain ⟨res, hres, -⟩ := greedySearchLayer_mem h query entry level hWF hin
    exact ⟨res, hres⟩
  · intro query K ef hK
    exact KNN_Search_safe h hWF hD hEp query K ef hK
  · intro cand M hcand
    exact simpleSelectLoop_ok h cand.length cand M (le_refl _) hcand

/-- Witness for C10 on a one-node index with a valid entry point. -/
theorem C10_dense_store_safety_witness :
    WFGraph wGraphOne.Nodes ∧ DenseIDs wGraphOne.Nodes ∧ EPValid wGraphOne ∧
    1 ≤ wGraphOne.EfConstruction ∧
    ((∀ vector level, vector ≠ [] →
      ∃ h2, Insert wGraphOne vector wGraphOne.Nodes.length level = .ok h2 ∧
        h2.Nodes.length = wGraphOne.Nodes.length + 1 ∧ WFGraph h2.Nodes ∧
        DenseIDs h2.Nodes ∧ EPValid h2 ∧
        h2.EfConstruction = wGraphOne.EfConstruction) ∧
    (∀ query entry ef level, 1 ≤ ef → entry ∈ wGraphOne.Nodes →
      ∃ res, searchLayer wGraphOne query entry ef level = .ok res) ∧
    (∀ query entry level, entry ∈ wGraphOne.Nodes →
      ∃ res, greedySearchLayer wGraphOne query entry level = .ok res) ∧
    (∀ query K ef, 1 ≤ K →
      (∃ lst, KNN_Search wGraphOne query K ef = .ok lst) ∨
        KNN_Search wGraphOne query K ef = .error .sliceBounds) ∧
    (∀ cand M, (∀ x ∈ cand, (DecodeHeapItem x).2 < wGraphOne.Nodes.length) →
      ∃ ns, simpleSelectNeighbors wGraphOne cand M = .ok ns ∧
        ∀ i ∈ ns, i < wGraphOne.Nodes.length)) :=
  ⟨by decide, by decide, by decide, by decide,
    C10_dense_store_safety wGraphOne (by decide) (by decide) (by decide) (by decide)⟩

/-- C1 (code bug): on the one-node index, KNN_Search with K = 5 panics
with a slice-bounds error instead of returning the single stored node:
the layer-0 beam search yields one candidate and the final truncation
candidates[:K] (part_002 lines 211-212) requires K ≤ len(candidates),
while the spec asks for up to K results, all stored nodes when fewer
than K exist (the part_001 variant truncates safely). -/
theorem C1_knn_few_nodes_panics :
    KNN_Search wGraphOne [0] 5 2 = .error .sliceBounds := by
  have hE : wGraphOne.EntryPoint = some 0 := rfl
  have hN0 : wGraphOne.Nodes[0]? = some ⟨0, [0], 0, [[]]⟩ := rfl
  have hGD : greedyDescent wGraphOne [0] (⟨0, [0], 0, [[]]⟩ : Node).Level
      ⟨0, [0], 0, [[]]⟩ = .ok ⟨0, [0], 0, [[]]⟩ := rfl
  have hslIf : searchLayer wGraphOne [0] ⟨0, [0], 0, [[]]⟩ (if 2 < 5 then 5 else 2) 0 =
      .ok [0] :=
    searchLayer_entry_only wGraphOne [0] ⟨0, [0], 0, [[]]⟩ _ 0
      (by decide) (by decide) (by decide)
  have hsl5 : searchLayer wGraphOne [0] ⟨0, [0], 0, [[]]⟩ 5 0 = .ok [0] :=
    searchLayer_entry_only wGraphOne [0] ⟨0, [0], 0, [[]]⟩ 5 0
      (by decide) (by decide) (by decide)
  rw [KNN_Search]
  simp only [hE, hN0, hGD, hslIf, hsl5]
  rfl

/-- C3 counterexample: the empty-vector violation surfaces as a Go panic
(insert.go lines 25-27; the repository test TestInsertPanicsOnEmptyVector
asserts it, and Insert has no error return value), not as an error
return, and a dimension mismatch is not checked at all: inserting a
2-dimensional vector into the 1-dimensional one-node index succeeds and
mutates the index. -/
theorem C3_error_handling_cex :
    (∀ (h : HNSW) (id level : ℕ), Insert h [] id level = .error .emptyVector) ∧
    (∃ h2, Insert wGraphOne [1, 2] 1 0 = .ok h2 ∧ h2.Nodes.length = 2) := by
  constructor
  · intro h id level
    rfl
  · obtain ⟨h2, hok, hl, -⟩ := Insert_ok wGraphOne [1, 2] 1 0 (by decide) (by decide)
      (by decide) (by decide) (by decide) (by decide)
    exact ⟨h2, hok, by rw [hl]; rfl⟩

/-- C3 (amended): Insert rejects only the empty vector, by panicking
before any mutation (its Go signature has no error result, so no
synchronous error value exists); dimension mismatches and duplicate ids
are not checked — under the dense-id discipline every nonempty vector is
inserted successfully, whatever its dimension. -/
theorem C3_insert_error_amended (h : HNSW) (vector : List ℚ) (level : ℕ)
    (hWF : WFGraph h.Nodes) (hD : DenseIDs h.Nodes) (hEp : EPValid h)
    (hef : 1 ≤ h.EfConstruction) (hv : vector ≠ []) :
    (∀ (h0 : HNSW) (id0 lv0 : ℕ), Insert h0 [] id0 lv0 = .error .emptyVector) ∧
    (∃ h2, Insert h vector h.Nodes.length level = .ok h2 ∧
      h2.Nodes.length = h.Nodes.length + 1) := by
  constructor
  · intro h0 id0 lv0
    rfl
  · obtain ⟨h2, hok, hl, -⟩ := Insert_ok h vector h.Nodes.length level hv hWF hD hEp hef rfl
    exact ⟨h2, hok, hl⟩

/-- Witness for the amended C3 on the one-node index with a vector of
the wrong dimension. -/
theorem C3_insert_error_amended_witness :
    WFGraph wGraphOne.Nodes ∧ DenseIDs wGraphOne.Nodes ∧ EPValid wGraphOne ∧
    1 ≤ wGraphOne.EfConstruction ∧ ([1, 2] : List ℚ) ≠ [] ∧
    ((∀ (h0 : HNSW) (id0 lv0 : ℕ), Insert h0 [] id0 lv0 = .error .emptyVector) ∧
      (∃ h2, Insert wGraphOne [1, 2] wGraphOne.Nodes.length 0 = .ok h2 ∧
        h2.Nodes.length = wGraphOne.Nodes.length + 1)) :=
  ⟨by decide, by decide, by decide, by decide, by decide,
    C3_insert_error_amended wGraphOne [1, 2] 0 (by decide) (by decide) (by decide)
      (by decide) (by decide)⟩

/-- Go slice values are references into a heap of backing arrays; a
vector reference is the index of its backing array. -/
abbrev goHeap : Type := List (List ℚ)

/-- A node as Go stores it, with the Vector field kept as the slice
reference it received. -/
structure NodeRef where
  ID : ℕ
  VectorRef : ℕ
  Level : ℕ
deriving DecidableEq, Repr

/-- NewNode under reference semantics (structs/node.go lines 29-48): the
assignment `Vector: vector` at line 40 stores the argument reference
itself — no copy is made. -/
def NewNodeRef (id : ℕ) (vectorRef : ℕ) (level : ℕ) : NodeRef :=
  { ID := id, VectorRef := vectorRef, Level := level }

/-- Read a node's vector through its stored reference. -/
def readVec (hp : goHeap) (n : NodeRef) : List ℚ :=
  hp.getD n.VectorRef []

/-- Write one element of the caller's slice in place. -/
def heapWrite (hp : goHeap) (ref idx : ℕ) (v : ℚ) : goHeap :=
  hp.set ref ((hp.getD ref []).set idx v)

/-- C4 counterexample: NewNode stores the caller's slice reference, so a
later mutation of the caller's array changes the stored vector: with one
backing array [1], the node built from it reads [1], and after the
caller writes 2 into slot 0 the same node reads [2]. -/
theorem C4_vector_copy_cex :
    (NewNodeRef 0 0 0).VectorRef = 0 ∧
    readVec [[1]] (NewNodeRef 0 0 0) = [1] ∧
    readVec (heapWrite [[1]] 0 0 2) (NewNodeRef 0 0 0) = [2] := by
  refine ⟨rfl, rfl, ?_⟩
  rfl

/-- C4 (amended): NewNode aliases the vector: the stored reference is the
argument itself, and any write through the caller's reference is visible
through the node — after the mutation the node reads the mutated array,
not an insert-time copy. -/
theorem C4_vector_alias_amended (hp : goHeap) (id r level i : ℕ) (v : ℚ) :
    (NewNodeRef id r level).VectorRef = r ∧
    readVec (heapWrite hp r i v) (NewNodeRef id r level) =
      (readVec hp (NewNodeRef id r level)).set i v := by
  refine ⟨rfl, ?_⟩
  show (hp.set r ((hp.getD r []).set i v)).getD r [] = (hp.getD r []).set i v
  by_cases hr : r < hp.length
  · rw [List.getD_eq_getElem _ _ (by rw [List.length_set]; exact hr)]
    rw [List.getElem_set_self]
  · rw [List.set_eq_of_length_le (by omega)]
    rw [List.getD_eq_default _ _ (by omega)]
    simp

end HnswGo
